import Mathlib

/-!
Verification of the fbcomments ingestion and normalization pipeline
(src/fbcomments.py) against its natural-language specification.

The Python source is shallowly embedded: each Python function that the
claims mention is translated into an executable Lean definition over
explicit data types.  Python dicts that are used as records become
structures, JSON payload values that are never inspected become type
parameters, mutation-based loops become folds or fuel-based recursions,
and raised exceptions become `Except` results.  Comments above each
definition cite the Python function and line range it embeds.
-/

/-! ## Part A: the comment tree (`_comment_tree`, lines 178-186, and
`_iterate_comment_tree`, lines 224-234)

A raw comment, as fed to `_comment_tree`, is a dict carrying a string
id, an optional parent reference (the dict `c["parent"]["id"]`) and a
message body.  Only these fields are read by the tree code. -/

structure RawComment where
  id : String
  parent : Option String
  message : String
deriving DecidableEq, Repr, Inhabited

/-- Position of the last comment in `cs` whose id equals `pid`.  This is
exactly what the Python dict comprehension `by_id = {c["id"]: c for c in
comments}` resolves a key to: later comments overwrite earlier ones. -/
def lastIdxOf (cs : List RawComment) (pid : String) : Option Nat :=
  match cs with
  | [] => none
  | c :: rest =>
    match lastIdxOf rest pid with
    | some k => some (k + 1)
    | none => if c.id = pid then some 0 else none

/-- The optional parent reference of the comment at position `j`
(the Python test `"parent" in c` plus the lookup `c["parent"]["id"]`). -/
def parentRef (cs : List RawComment) (j : Nat) : Option String :=
  match cs[j]? with
  | some c => c.parent
  | none => none

/-- Position of the parent that the comment at position `j` resolves to
through the `by_id` dict, if any. -/
def parentIdx (cs : List RawComment) (j : Nat) : Option Nat :=
  match parentRef cs j with
  | some p => lastIdxOf cs p
  | none => none

/-- Positions of the comments that `_comment_tree` appends to the
`__children` list of the comment at position `i`, in loop (= input)
order: the loop runs over `comments` in order and appends each comment
with a parent to `by_id[c["parent"]["id"]].setdefault("__children", [])`. -/
def childIdxs (cs : List RawComment) (i : Nat) : List Nat :=
  (List.range cs.length).filter (fun j => parentIdx cs j == some i)

/-- Positions of the comments that `_comment_tree` appends to its `root`
result list, in input order. -/
def rootIdxs (cs : List RawComment) : List Nat :=
  (List.range cs.length).filter (fun j => (parentRef cs j).isNone)

/-- Every parent reference resolves through `by_id` to a strictly earlier
comment.  This is the well-formedness condition the adapters guarantee
(spec section 4.3: parent pointers only ever point to comments that
appeared earlier); it rules out resolution cycles. -/
def resolvesEarlierB (cs : List RawComment) : Bool :=
  (List.range cs.length).all (fun j =>
    match parentRef cs j with
    | none => true
    | some p =>
      match lastIdxOf cs p with
      | some i => decide (i < j)
      | none => false)

/-- Every parent reference resolves through `by_id` somewhere in the
list; when this fails the Python loop raises `KeyError` at
`by_id[c["parent"]["id"]]`. -/
def resolvableB (cs : List RawComment) : Bool :=
  cs.all (fun c =>
    match c.parent with
    | some p => (lastIdxOf cs p).isSome
    | none => true)

/-- A built comment node.  `idx` identifies the underlying flat-list
comment by position (Python object identity).  `commentsF` models the
value of the dict key `"comments"` and `childrenF` the value of the dict
key `"__children"`; `_comment_tree` populates only `__children`, while
`_iterate_comment_tree` traverses only `comments`. -/
inductive BComment where
  | mk : Nat → List BComment → List BComment → BComment

def BComment.idx : BComment → Nat
  | .mk i _ _ => i

def BComment.commentsF : BComment → List BComment
  | .mk _ cf _ => cf

def BComment.childrenF : BComment → List BComment
  | .mk _ _ ch => ch

/-- Subtree rooted at position `i` as `_comment_tree` builds it: the
children (under `__children`) are the comments whose parent resolves to
`i`, in input order; raw graph comments carry no `"comments"` key, so a
lookup of that key yields the empty default.  Fuel bounds the recursion
depth; `cs.length` fuel is always enough for resolvable-earlier input. -/
def subtreeAt (cs : List RawComment) : Nat → Nat → BComment
  | 0, i => .mk i [] []
  | fuel + 1, i => .mk i [] ((childIdxs cs i).map (fun c => subtreeAt cs fuel c))

/-- The forest returned by `_comment_tree` (lines 178-186): the root
comments in input order, each with its `__children` subtree. -/
def _comment_tree (cs : List RawComment) : List BComment :=
  (rootIdxs cs).map (fun r => subtreeAt cs cs.length r)

/-- Error raised during tree construction: the Python code raises
`KeyError` (in `_comment_tree`) or `AssertionError` (in
`_download_disqus`) when a parent reference does not resolve. -/
inductive TreeError where
  | unresolvedParent
deriving DecidableEq, Repr

/-- Embeds `_comment_tree` including its failure behavior: when some parent
reference does not resolve through `by_id`, the loop raises before
returning, so no (partial) tree is ever returned. -/
def _comment_treeE (cs : List RawComment) : Except TreeError (List BComment) :=
  if resolvableB cs then Except.ok (_comment_tree cs) else Except.error TreeError.unresolvedParent

mutual
/-- Recursive part of `_iterate_comment_tree` (lines 224-234): yields
`(depth, comment)` and recurses into `c.get("comments", [])`. -/
def iterTree (d : Nat) : BComment → List (Nat × Nat)
  | .mk i cf _ => (d, i) :: iterForest (d + 1) cf
def iterForest (d : Nat) : List BComment → List (Nat × Nat)
  | [] => []
  | t :: ts => iterTree d t ++ iterForest d ts
end

/-- Embeds `_iterate_comment_tree` (lines 224-234): depth-first traversal of a
comment forest following the `"comments"` key, yielding
`(depth, comment)` pairs in order. -/
def _iterate_comment_tree (ts : List BComment) : List (Nat × Nat) :=
  iterForest 0 ts

mutual
/-- Depth-first flattening of a built forest along the `__children`
lists, i.e. along the child lists that `_comment_tree` actually
populates.  Returns the visited comment positions in visit order. -/
def flattenTree : BComment → List Nat
  | .mk i _ ch => i :: flattenForest ch
def flattenForest : List BComment → List Nat
  | [] => []
  | t :: ts => flattenTree t ++ flattenForest ts
end

/-- Positions visited by flattening the subtree at position `i`. -/
def flatAt (cs : List RawComment) (fuel i : Nat) : List Nat :=
  flattenTree (subtreeAt cs fuel i)

/-- Positions visited by depth-first flattening of the `_comment_tree`
output along the `__children` lists. -/
def comment_tree_flatten (cs : List RawComment) : List Nat :=
  flattenForest (_comment_tree cs)

/-- Ancestor chain of position `j` (fuel-based helper): `j`, then the
resolved parent of `j`, and so on, stopping at a root.  The recursion
only follows parents at strictly smaller positions, which is the only
case arising under `resolvesEarlierB`. -/
def ancestorsF (cs : List RawComment) : Nat → Nat → List Nat
  | 0, j => [j]
  | fuel + 1, j =>
    match parentIdx cs j with
    | none => [j]
    | some i => if i < j then j :: ancestorsF cs fuel i else [j]

/-- Ancestor chain of position `j`:  `j` itself, its resolved parent,
and so on up to a root.  Fuel `j` always suffices because parents sit at
strictly smaller positions. -/
def ancestors (cs : List RawComment) (j : Nat) : List Nat :=
  ancestorsF cs j j

/-! ## Part B: the paged fetcher (`graph_api`, lines 38-61)

The transport layer (URL construction, the access token and the limit
parameter) is opaque to the claims.  A fetch run is modelled by the
sequence of JSON response envelopes the server would return: following
the `paging.next` URL of the k-th response yields the (k+1)-th response.
An envelope either lacks a `data` key (a single-object resource, `obj`)
or carries a `data` item list plus an optional next cursor (`page`). -/

inductive Envelope (α : Type) where
  | obj : α → Envelope α
  | page : List α → Bool → Envelope α
deriving DecidableEq, Repr

inductive GraphResult (α : Type) where
  | single : α → GraphResult α
  | items : List α → GraphResult α
deriving DecidableEq, Repr

inductive GraphError where
  /-- The `assert not data` in `graph_api` fired: a non-list envelope
  arrived after items had already been accumulated. -/
  | protocolViolation
  /-- A request was needed but no response is available (models a
  transport failure, outside the scope of the pagination claims). -/
  | noResponse
deriving DecidableEq, Repr

/-- The pagination loop of `graph_api`: `acc` is the accumulated `data`
list.  A non-list envelope is returned as-is after `assert not data`;
a list envelope is filtered by `filter_func` page-locally and appended;
a present next cursor continues with the next response.
Note `filter(None, items)` in Python keeps truthy items; raw Graph API
items are nonempty dicts, hence always truthy, so the no-filter case is
modelled by the constant-true predicate. -/
def graph_api_go (f : α → Bool) : List (Envelope α) → List α → Except GraphError (GraphResult α)
  | [], _ => Except.error GraphError.noResponse
  | r :: rest, acc =>
    match r with
    | Envelope.obj o =>
      if acc.isEmpty then Except.ok (GraphResult.single o)
      else Except.error GraphError.protocolViolation
    | Envelope.page items hasNext =>
      let acc := acc ++ items.filter f
      if hasNext then graph_api_go f rest acc else Except.ok (GraphResult.items acc)

/-- Embeds `graph_api` (lines 38-61) on a given server response sequence. -/
def graph_api (f : α → Bool) (responses : List (Envelope α)) : Except GraphError (GraphResult α) :=
  graph_api_go f responses []

/-- A well-formed multi-page response sequence: every page except the
last announces a next cursor, the last does not. -/
def pagesToResponses : List (List α) → List (Envelope α)
  | [] => []
  | [its] => [Envelope.page its false]
  | its :: rest => Envelope.page its true :: pagesToResponses rest

/-! ## Part C: the facebook pipeline (`download_facebook_post`, lines
526-584, and `download_facebook_page`, lines 497-523)

`config` is a JSON dict; the pipeline reads `config.get("abort_on_error",
True)`, so only that key is modelled, as an optional boolean. -/

structure Config where
  abort_on_error : Option Bool
deriving DecidableEq, Repr

structure UserRef where
  id : String
  name : String
deriving DecidableEq, Repr

/-- The raw post dict returned by the Graph API for a single post,
restricted to the keys lines 572-583 read.  `shares_count` is the
`count` field of the `shares` dict when the `shares` key is present;
`likes` is the reaction list when the `likes` key is present. -/
structure FbRawPost where
  message : Option String
  name : Option String
  created_time : String
  likes : Option (List UserRef)
  shares_count : Option Nat
  fromUser : UserRef
  type : Option String
deriving DecidableEq, Repr

/-- A canonical-post field that is either a number or the empty-string
default `""` the Python code uses for absent counts. -/
inductive CountVal where
  | num : Nat → CountVal
  | blank : CountVal
deriving DecidableEq, Repr

/-- The canonical post dict built at lines 572-583. -/
structure CanonPost where
  id : String
  text : Option String
  created_time : String
  like_count : CountVal
  share_count : CountVal
  author_id : String
  author_name : String
  medium : String
deriving DecidableEq, Repr

/-- Lines 572-583 of `download_facebook_post`: the canonical post dict.
Field by field:  `text` is `raw_post.get("message", raw_post.get("name"))`;
`like_count` is `len(raw_post["likes"]) if "likes" in raw_post else ""`;
`share_count` is `raw_post.get("shares", {"count": ""})["count"]`;
`medium` is `raw_post.get("type", "unbekannt")`. -/
def facebook_canonical_post (post_id : String) (raw_post : FbRawPost) : CanonPost :=
  { id := post_id
    text :=
      match raw_post.message with
      | some m => some m
      | none => raw_post.name
    created_time := raw_post.created_time
    like_count :=
      match raw_post.likes with
      | some l => CountVal.num l.length
      | none => CountVal.blank
    share_count :=
      match raw_post.shares_count with
      | some n => CountVal.num n
      | none => CountVal.blank
    author_id := raw_post.fromUser.id
    author_name := raw_post.fromUser.name
    medium := (raw_post.type).getD ("unbekannt") }

/-- Outcome of the three Graph API fetches `download_facebook_post`
performs for one post (post body, comment stream, likes list); an
`error` value is the HTTP status code of a raised `urllib.error.HTTPError`. -/
structure PostData where
  body : Except Nat FbRawPost
  comments : Except Nat (List RawComment)
  likes : Except Nat (List UserRef)
deriving Repr

/-- One file written into the per-run snapshot directory by
`_write_data`; the constructor encodes the file name pattern. -/
inductive SnapEntry where
  | feed : List String → SnapEntry
  | rawPost : String → FbRawPost → SnapEntry
  | rawComments : String → List RawComment → SnapEntry
  | rawLikes : String → List UserRef → SnapEntry
deriving DecidableEq, Repr

/-- Embeds `download_facebook_post` (lines 526-549) as called from the page
loop (no `url`, so the canonicalization tail is skipped).  Only the
post-body fetch is wrapped in try/except: on its `HTTPError`, the
exception is re-raised when `config.get("abort_on_error", True)` holds
and otherwise `(post_id, he)` is returned as a recorded failure.
Failures of the comment or likes fetch always propagate.  On success the
three data files are written into the snapshot directory `d`. -/
def download_facebook_post (cfg : Config) (d : List SnapEntry) (post_id : String)
    (pd : PostData) : Except Nat (List SnapEntry × Option (String × Nat)) :=
  match pd.body with
  | Except.error code =>
    if (cfg.abort_on_error).getD true then Except.error code
    else Except.ok (d, some (post_id, code))
  | Except.ok raw_post =>
    let d := d ++ [SnapEntry.rawPost post_id raw_post]
    match pd.comments with
    | Except.error code => Except.error code
    | Except.ok raw_comments =>
      let d := d ++ [SnapEntry.rawComments post_id raw_comments]
      match pd.likes with
      | Except.error code => Except.error code
      | Except.ok likes => Except.ok (d ++ [SnapEntry.rawLikes post_id likes], none)

/-- The per-post loop of `download_facebook_page` (lines 511-523): each
post is downloaded in feed order, recorded failures are collected in
`errors`, and a raised exception aborts the whole run.  Note: source
line 514 invokes `download_facebook_post(config, post_id)` and thereby
omits the required directory argument `d`; the model performs the call
as evidently intended, `download_facebook_post(config, d, post_id)`. -/
def download_facebook_page_go (cfg : Config) (net : String → PostData) :
    List String → List SnapEntry → List (String × Nat) →
    Except Nat (List SnapEntry × List (String × Nat))
  | [], d, errs => Except.ok (d, errs)
  | pid :: rest, d, errs =>
    match download_facebook_post cfg d pid (net pid) with
    | Except.error code => Except.error code
    | Except.ok (d, none) => download_facebook_page_go cfg net rest d errs
    | Except.ok (d, some e) => download_facebook_page_go cfg net rest d (errs ++ [e])

/-- Embeds `download_facebook_page` (lines 497-523) after the feed fetch: the
feed index file is written, every post in the feed is downloaded, and if
any failures were collected they are reported and the process exits with
outcome 1 (`sys.exit(1)`); otherwise the run ends with outcome 0.
`net` maps a post id to the outcome of its three fetches. -/
def download_facebook_page (cfg : Config) (feedIds : List String) (net : String → PostData) :
    Except Nat (List SnapEntry × List (String × Nat) × Nat) :=
  match download_facebook_page_go cfg net feedIds [SnapEntry.feed feedIds] [] with
  | Except.error code => Except.error code
  | Except.ok (d, errs) => Except.ok (d, errs, if errs.isEmpty then 0 else 1)

/-- All three fetches of a post succeed. -/
def postAllOk (pd : PostData) : Bool :=
  (pd.body).toBool && (pd.comments).toBool && (pd.likes).toBool

/-- The data files a fully fetched post contributes to the snapshot
directory; a post whose body fetch failed contributes nothing. -/
def postEntries (q : String) (pd : PostData) : List SnapEntry :=
  match pd.body, pd.comments, pd.likes with
  | Except.ok b, Except.ok cm, Except.ok lk =>
    [SnapEntry.rawPost q b, SnapEntry.rawComments q cm, SnapEntry.rawLikes q lk]
  | _, _, _ => []

/-! ## Part D: the comment-widget adapter (`_download_disqus`, lines
335-390)

Disqus item ids and parent references are numeric (the tree-building
step applies `int(...)` to both); `createdAt` is the timestamp field the
raw API item carries, which the adapter never reads. -/

structure DisqusRaw where
  id : Nat
  author_name : String
  author_username : Option String
  likes : Nat
  raw_message : String
  parent : Option Nat
  createdAt : String
deriving DecidableEq, Repr

structure DisqusComment where
  id : Nat
  author_name : String
  created_time : String
  like_count : Nat
  text : String
  parent_id : Option Nat
  author_id : Option String
deriving DecidableEq, Repr, Inhabited

/-- Lines 362-374: the comment dict built for one raw Disqus item.
`created_time` is assigned the literal string `"createdAt"` (the field
name, not the field value `cdata["createdAt"]`).  `author_id` is set
only when `cdata["author"].get("username")` is truthy, so an absent or
empty username leaves it out. -/
def disqus_map_comment (cdata : DisqusRaw) : DisqusComment :=
  { id := cdata.id
    author_name := cdata.author_name
    created_time := "createdAt"
    like_count := cdata.likes
    text := cdata.raw_message
    parent_id := cdata.parent
    author_id :=
      match cdata.author_username with
      | some s => if s = "" then none else some s
      | none => none }

/-- The pagination loop of `_download_disqus` (lines 343-377): every
page of the thread listing contributes its mapped comments to
`all_comments` in arrival order. -/
def disqus_all_comments (pages : List (List DisqusRaw)) : List DisqusComment :=
  (pages.flatMap (fun p => p)).map disqus_map_comment

/-- Position of the last comment in `ds` whose numeric id equals `pid`:
the resolution performed by `comments_by_id = {int(c["id"]): c for c in
all_comments}` at line 379. -/
def dLastIdxOf (ds : List DisqusComment) (pid : Nat) : Option Nat :=
  match ds with
  | [] => none
  | c :: rest =>
    match dLastIdxOf rest pid with
    | some k => some (k + 1)
    | none => if c.id = pid then some 0 else none

/-- A comment is attached to a parent exactly when `c["parent_id"]` is
truthy (so a `None` or `0` parent makes it a root). -/
def dParentRef (ds : List DisqusComment) (j : Nat) : Option Nat :=
  match ds[j]? with
  | some c =>
    match c.parent_id with
    | some p => if p = 0 then none else some p
    | none => none
  | none => none

def dParentIdx (ds : List DisqusComment) (j : Nat) : Option Nat :=
  match dParentRef ds j with
  | some p => dLastIdxOf ds p
  | none => none

def dChildIdxs (ds : List DisqusComment) (i : Nat) : List Nat :=
  (List.range ds.length).filter (fun j => dParentIdx ds j == some i)

def dRootIdxs (ds : List DisqusComment) : List Nat :=
  (List.range ds.length).filter (fun j => (dParentRef ds j).isNone)

/-- The `assert parent_id in comments_by_id` at line 385: every truthy
parent reference must resolve. -/
def dResolvableB (ds : List DisqusComment) : Bool :=
  ds.all (fun c =>
    match c.parent_id with
    | some p => if p = 0 then true else (dLastIdxOf ds p).isSome
    | none => true)

/-- Subtree rooted at position `i` as the loop at lines 381-388 builds
it; unlike `_comment_tree`, children are appended to the `"comments"`
key of the parent dict. -/
def dSubtreeAt (ds : List DisqusComment) : Nat → Nat → BComment
  | 0, i => BComment.mk i [] []
  | fuel + 1, i => BComment.mk i ((dChildIdxs ds i).map (fun c => dSubtreeAt ds fuel c)) []

/-- The tree-building step of `_download_disqus` (lines 379-390)
including its failure behavior: an unresolved truthy parent reference
raises `AssertionError` before anything is returned. -/
def disqus_tree (ds : List DisqusComment) : Except TreeError (List BComment) :=
  if dResolvableB ds then
    Except.ok ((dRootIdxs ds).map (fun r => dSubtreeAt ds ds.length r))
  else Except.error TreeError.unresolvedParent

/-! ## Part E: the aggregation engine (`_all_users` lines 128-134,
`_user_stats` lines 147-158, `_user_key_actioncount` lines 171-175,
`_duplicate_names` lines 137-144)

In the source both user ids and display names are strings, compared with
string equality and lexicographic string order.  The definitions are
parametric in linearly ordered types `ι` (ids) and `ν` (names), which
keeps every comparison exactly as in the source while letting concrete
witnesses evaluate in the kernel. -/

inductive ActionKind where
  | post
  | like_post
  | comment
deriving DecidableEq, Repr

structure AUser (ι ν : Type) where
  id : ι
  name : ν
deriving DecidableEq, Repr

structure AggComment (ι ν : Type) where
  fromUser : AUser ι ν
deriving DecidableEq, Repr

/-- One post of a read-back snapshot feed, restricted to the keys
`_all_users` reads: the post author (`post["from"]`), the reaction list
(`post["likes"]`, one user per like) and the comment list (each with its
author `c["from"]`). -/
structure AggPost (ι ν : Type) where
  fromUser : AUser ι ν
  likes : List (AUser ι ν)
  comments : List (AggComment ι ν)
deriving DecidableEq, Repr

/-- Embeds `_all_users` (lines 128-134): yields, per post in feed order, a
`(action, user)` pair for the post author, each liker and each comment
author. -/
def _all_users {ι ν : Type} (feed : List (AggPost ι ν)) : List (ActionKind × AUser ι ν) :=
  feed.flatMap (fun p =>
    (ActionKind.post, p.fromUser) ::
      (p.likes.map (fun u => (ActionKind.like_post, u)) ++
        p.comments.map (fun c => (ActionKind.comment, c.fromUser))))

/-- The per-user action counter (`collections.Counter` restricted to the
three action keys `_all_users` can emit). -/
structure Counts where
  post : Nat
  like_post : Nat
  comment : Nat
deriving DecidableEq, Repr

def Counts.zero : Counts := { post := 0, like_post := 0, comment := 0 }

def Counts.bump (c : Counts) : ActionKind → Counts
  | ActionKind.post => { c with post := c.post + 1 }
  | ActionKind.like_post => { c with like_post := c.like_post + 1 }
  | ActionKind.comment => { c with comment := c.comment + 1 }

/-- The value of `sum(actions.values())` for such a counter. -/
def Counts.total (c : Counts) : Nat := c.post + c.like_post + c.comment

/-- One entry of the `_user_stats` result: the tuple
`(id, name, {action: count})`. -/
structure UserEntry (ι ν : Type) where
  id : ι
  name : ν
  counts : Counts
deriving DecidableEq, Repr

/-- One step of the `_user_stats` accumulation loop (lines 150-153):
`user_dict.setdefault(u["id"], (u["name"], Counter()))` keeps the first
name seen for an id and then increments the action counter.  The
insertion-ordered dict is modelled as an association list keyed by id. -/
def addAction {ι ν : Type} [DecidableEq ι] (acc : List (UserEntry ι ν))
    (au : ActionKind × AUser ι ν) : List (UserEntry ι ν) :=
  if acc.any (fun e => e.id = (au.2).id) then
    acc.map (fun e => if e.id = (au.2).id then { e with counts := (e.counts).bump au.1 } else e)
  else
    acc ++ [{ id := (au.2).id, name := (au.2).name, counts := Counts.zero.bump au.1 }]

/-- The unsorted `users` list of `_user_stats` (lines 149-155). -/
def buildStats {ι ν : Type} [DecidableEq ι] (feed : List (AggPost ι ν)) : List (UserEntry ι ν) :=
  (_all_users feed).foldl addAction []

/-- One lexicographic comparison step:  strictly smaller on this
component, or equal and smaller-or-equal on the remaining components. -/
abbrev lexStep {β : Type} [LT β] (a b : β) (rest : Prop) : Prop :=
  a < b ∨ (a = b ∧ rest)

/-- The sort order induced by `_user_key_actioncount` (lines 171-175):
ascending in the key tuple
`(-sum(actions.values()), -actions.get("comment", 0),
-actions.get("like_post", 0), uname, uid)`, i.e. descending total action
count, then descending comment count, then descending like count, then
ascending name, then ascending id. -/
def _user_key_actioncount_le {ι ν : Type} [LinearOrder ι] [LinearOrder ν]
    (u v : UserEntry ι ν) : Prop :=
  lexStep (v.counts).total (u.counts).total
    (lexStep (v.counts).comment (u.counts).comment
      (lexStep (v.counts).like_post (u.counts).like_post
        (lexStep u.name v.name (u.id ≤ v.id))))

instance {ι ν : Type} [LinearOrder ι] [LinearOrder ν] :
    DecidableRel (@_user_key_actioncount_le ι ν _ _) := fun u v => by
  unfold _user_key_actioncount_le
  infer_instance

/-- Embeds `_user_stats` (lines 147-158): accumulate the per-user counters in
first-seen order, then `users.sort(key=_user_key_actioncount)`.  Python
sort is a stable sort; since the key tuple ends in the unique id, the
sorted result is unique, and insertion sort realizes it. -/
def _user_stats {ι ν : Type} [LinearOrder ι] [LinearOrder ν]
    (feed : List (AggPost ι ν)) : List (UserEntry ι ν) :=
  List.insertionSort _user_key_actioncount_le (buildStats feed)

/-- The ordering the claim attributes to `userStats`: descending total
action count, then ascending display name, then ascending id.  This
definition follows the words of the specification, for comparison with
`_user_key_actioncount_le` above. -/
def user_key_spec_le {ι ν : Type} [LinearOrder ι] [LinearOrder ν]
    (u v : UserEntry ι ν) : Prop :=
  lexStep (v.counts).total (u.counts).total (lexStep u.name v.name (u.id ≤ v.id))

instance {ι ν : Type} [LinearOrder ι] [LinearOrder ν] :
    DecidableRel (@user_key_spec_le ι ν _ _) := fun u v => by
  unfold user_key_spec_le
  infer_instance

/-- One step of the `_duplicate_names` grouping loop (lines 139-141):
`id_by_name[u["name"]].add(u["id"])` on a `defaultdict(set)`, modelled
as an insertion-ordered association list from names to duplicate-free id
lists. -/
def insertPair {ι ν : Type} [DecidableEq ι] [DecidableEq ν] (acc : List (ν × List ι))
    (nm : ν) (uid : ι) : List (ν × List ι) :=
  match acc with
  | [] => [(nm, [uid])]
  | (n, ids) :: rest =>
    if n = nm then (n, if uid ∈ ids then ids else ids ++ [uid]) :: rest
    else (n, ids) :: insertPair rest nm uid

/-- The `id_by_name` grouping of `_duplicate_names`. -/
def id_by_name {ι ν : Type} [DecidableEq ι] [DecidableEq ν]
    (feed : List (AggPost ι ν)) : List (ν × List ι) :=
  (_all_users feed).foldl (fun acc au => insertPair acc (au.2).name (au.2).id) []

/-- Sort order of the `_duplicate_names` result (line 144): ascending in
the key `(-len(ids), name)`, i.e. descending id count then ascending
name. -/
def dup_le {ι ν : Type} [LinearOrder ν] (a b : ν × List ι) : Prop :=
  lexStep (b.2).length (a.2).length (a.1 ≤ b.1)

instance {ι ν : Type} [LinearOrder ν] : DecidableRel (@dup_le ι ν _) := fun a b => by
  unfold dup_le
  infer_instance

/-- Embeds `_duplicate_names` (lines 137-144): keep only names whose id set has
more than one element, pair each with its sorted id list, and sort by
descending id count then ascending name. -/
def _duplicate_names {ι ν : Type} [LinearOrder ι] [LinearOrder ν]
    (feed : List (AggPost ι ν)) : List (ν × List ι) :=
  List.insertionSort dup_le
    ((id_by_name feed).filterMap (fun t =>
      if 1 < (t.2).length then some (t.1, List.insertionSort (fun a b => a ≤ b) t.2)
      else none))

/-- The multiset of (name, id) observations `_all_users` makes: the
ground truth `_duplicate_names` groups. -/
def observes {ι ν : Type} (feed : List (AggPost ι ν)) (n : ν) (i : ι) : Prop :=
  ∃ a, a ∈ _all_users feed ∧ (a.2).name = n ∧ (a.2).id = i

instance {ι ν : Type} [DecidableEq ι] [DecidableEq ν] (feed : List (AggPost ι ν)) (n : ν)
    (i : ι) : Decidable (observes feed n i) := by
  unfold observes
  infer_instance

/-! ## Generic list lemmas -/

theorem fb_count_flatMap (l : List Nat) (g : Nat → List Nat) (a : Nat) :
    ((l.flatMap g).count a) = (l.map (fun c => (g c).count a)).sum := by
  induction l with
  | nil => simp
  | cons x xs ih => simp [List.flatMap_cons, List.count_append, ih]

theorem fb_count_range (n j : Nat) : (List.range n).count j = if j < n then 1 else 0 := by
  induction n with
  | zero => simp
  | succ m ih =>
    rw [List.range_succ, List.count_append]
    by_cases h : j < m
    · have h2 : j < m + 1 := Nat.lt_succ_of_lt h
      have h3 : j ≠ m := Nat.ne_of_lt h
      simp [ih, h, h2, List.count_singleton', h3]
    · by_cases h2 : j = m
      · subst h2
        simp [ih, h, List.count_singleton']
      · have h3 : ¬ j < m + 1 := by omega
        simp [ih, h, h3, List.count_singleton', h2]

theorem fb_sum_map_one_of_unique {l : List Nat} {f : Nat → Nat} {c0 : Nat}
    (hl : l.Nodup) (hc : c0 ∈ l) (h1 : f c0 = 1) (h0 : ∀ c ∈ l, c ≠ c0 → f c = 0) :
    (l.map f).sum = 1 := by
  induction l with
  | nil => cases hc
  | cons a t ih =>
    rcases List.mem_cons.mp hc with rfl | hct
    · have hz : (t.map f).sum = 0 := by
        apply List.sum_eq_zero
        intro x hx
        obtain ⟨c, hcmem, rfl⟩ := List.mem_map.mp hx
        have : c ≠ c0 := by
          intro h
          subst h
          exact (List.nodup_cons.mp hl).1 hcmem
        exact h0 c (List.mem_cons_of_mem _ hcmem) this
      simp [h1, hz]
    · have ha : a ≠ c0 := by
        intro h
        subst h
        exact (List.nodup_cons.mp hl).1 hct
      have hz : f a = 0 := h0 a (List.mem_cons_self a t) ha
      have hst := ih (List.nodup_cons.mp hl).2 hct
        (fun c hcm hne => h0 c (List.mem_cons_of_mem _ hcm) hne)
      simp [hz, hst]

theorem fb_flatMap_congr {l : List Nat} {f g : Nat → List Nat} (h : ∀ a ∈ l, f a = g a) :
    l.flatMap f = l.flatMap g := by
  induction l with
  | nil => rfl
  | cons x xs ih =>
    simp only [List.flatMap_cons]
    rw [h x (List.mem_cons_self x xs), ih (fun a ha => h a (List.mem_cons_of_mem x ha))]

theorem fb_chunk_sublist {l : List Nat} {g : Nat → List Nat} {c : Nat} (h : c ∈ l) :
    (g c).Sublist (l.flatMap g) := by
  induction l with
  | nil => cases h
  | cons a t ih =>
    rcases List.mem_cons.mp h with rfl | hct
    · simp only [List.flatMap_cons]
      exact List.sublist_append_left (g c) (t.flatMap g)
    · simpa [List.flatMap_cons] using List.sublist_append_of_sublist_right (ih hct)

theorem fb_chunks_order {l : List Nat} {g : Nat → List Nat} {c c' x : Nat}
    (hl : l.Pairwise (· < ·)) (hc : c ∈ l) (hc' : c' ∈ l) (hlt : c < c')
    (hx : x ∈ g c) (hh : c' ∈ g c') : List.Sublist [x, c'] (l.flatMap g) := by
  induction l with
  | nil => cases hc
  | cons a t ih =>
    have hpa := (List.pairwise_cons.mp hl).1
    have hpt := (List.pairwise_cons.mp hl).2
    rcases List.mem_cons.mp hc with rfl | hct
    · have hc't : c' ∈ t := by
        rcases List.mem_cons.mp hc' with rfl | h
        · omega
        · exact h
      have h1 : List.Sublist [x] (g c) := List.singleton_sublist.mpr hx
      have h2 : List.Sublist [c'] (t.flatMap g) :=
        List.singleton_sublist.mpr ((fb_chunk_sublist hc't).subset hh)
      simpa [List.flatMap_cons] using List.Sublist.append h1 h2
    · have hc't : c' ∈ t := by
        rcases List.mem_cons.mp hc' with rfl | h
        · have := hpa c hct
          omega
        · exact h
      simpa [List.flatMap_cons] using
        List.sublist_append_of_sublist_right (ih hpt hct hc't)

theorem fb_getD_range_map {α : Type} [Inhabited α] (cs : List α) :
    (List.range cs.length).map (fun i => cs.getD i default) = cs := by
  induction cs with
  | nil => simp
  | cons c t ih =>
    rw [List.length_cons, List.range_succ_eq_map]
    simp only [List.map_cons, List.map_map]
    have hcomp : ((fun i => (c :: t).getD i default) ∘ Nat.succ) = fun i => t.getD i default := by
      funext i
      simp [List.getD]
    rw [hcomp, ih]
    simp [List.getD]

theorem fb_two_mem_one_lt_length {α : Type} {l : List α} {a b : α}
    (ha : a ∈ l) (hb : b ∈ l) (hne : a ≠ b) : 1 < l.length := by
  match l with
  | [] => cases ha
  | [x] =>
    rw [List.mem_singleton] at ha hb
    subst ha; subst hb
    exact absurd rfl hne
  | x :: y :: t =>
    simp only [List.length_cons]
    omega

/-! ## Lemmas about the comment-tree embedding -/

theorem lastIdxOf_lt_length {cs : List RawComment} {p : String} {i : Nat}
    (h : lastIdxOf cs p = some i) : i < cs.length := by
  induction cs generalizing i with
  | nil => simp [lastIdxOf] at h
  | cons c rest ih =>
    rw [lastIdxOf] at h
    cases hr : lastIdxOf rest p with
    | some k =>
      rw [hr] at h
      cases h
      have := ih hr
      simp [List.length_cons]
      omega
    | none =>
      rw [hr] at h
      by_cases hid : c.id = p
      · simp [hid] at h
        subst h
        simp
      · simp [hid] at h

theorem parentRef_eq_none_of_le {cs : List RawComment} {j : Nat} (h : cs.length ≤ j) :
    parentRef cs j = none := by
  have : cs[j]? = none := by
    rw [List.getElem?_eq_none_iff]
    exact h
  simp [parentRef, this]

theorem parentIdx_lt_length {cs : List RawComment} {j i : Nat}
    (h : parentIdx cs j = some i) : i < cs.length := by
  rw [parentIdx] at h
  cases hp : parentRef cs j with
  | none => rw [hp] at h; cases h
  | some p =>
    rw [hp] at h
    exact lastIdxOf_lt_length h

theorem parentIdx_none_of_root {cs : List RawComment} {j : Nat}
    (h : parentRef cs j = none) : parentIdx cs j = none := by
  simp [parentIdx, h]

theorem resolvesEarlier_resolves {cs : List RawComment}
    (H : resolvesEarlierB cs = true) {j : Nat} (hj : j < cs.length) {p : String}
    (h : parentRef cs j = some p) : ∃ i, lastIdxOf cs p = some i ∧ i < j := by
  have hall := List.all_eq_true.mp H j (List.mem_range.mpr hj)
  simp only [h] at hall
  cases hl : lastIdxOf cs p with
  | none =>
    simp only [hl] at hall
    cases hall
  | some i =>
    simp only [hl] at hall
    exact ⟨i, rfl, of_decide_eq_true hall⟩

theorem parentIdx_eq_lastIdxOf {cs : List RawComment} {j : Nat} {p : String}
    (hp : parentRef cs j = some p) : parentIdx cs j = lastIdxOf cs p := by
  simp only [parentIdx, hp]

theorem resolvesEarlier_parentIdx {cs : List RawComment}
    (H : resolvesEarlierB cs = true) {j : Nat} (hj : j < cs.length) {i : Nat}
    (h : parentIdx cs j = some i) : i < j := by
  cases hp : parentRef cs j with
  | none =>
    rw [parentIdx_none_of_root hp] at h
    cases h
  | some p =>
    obtain ⟨i2, hi2, hlt⟩ := resolvesEarlier_resolves H hj hp
    rw [parentIdx_eq_lastIdxOf hp, hi2] at h
    cases h
    exact hlt

theorem parentIdx_none_iff {cs : List RawComment} (H : resolvesEarlierB cs = true)
    {j : Nat} (hj : j < cs.length) : parentIdx cs j = none ↔ parentRef cs j = none := by
  constructor
  · intro h
    cases hp : parentRef cs j with
    | none => rfl
    | some p =>
      obtain ⟨i, hi, _⟩ := resolvesEarlier_resolves H hj hp
      rw [parentIdx_eq_lastIdxOf hp, hi] at h
      cases h
  · exact parentIdx_none_of_root

theorem mem_childIdxs {cs : List RawComment} {i c : Nat} :
    c ∈ childIdxs cs i ↔ c < cs.length ∧ parentIdx cs c = some i := by
  simp [childIdxs, List.mem_filter, List.mem_range]

theorem mem_rootIdxs {cs : List RawComment} {r : Nat} :
    r ∈ rootIdxs cs ↔ r < cs.length ∧ parentRef cs r = none := by
  simp [rootIdxs, List.mem_filter, List.mem_range, Option.isNone_iff_eq_none]

theorem childIdxs_pairwise (cs : List RawComment) (i : Nat) :
    (childIdxs cs i).Pairwise (· < ·) :=
  List.Pairwise.filter _ (List.pairwise_lt_range _)

theorem childIdxs_nodup (cs : List RawComment) (i : Nat) : (childIdxs cs i).Nodup :=
  List.Nodup.filter _ (List.nodup_range _)

theorem rootIdxs_pairwise (cs : List RawComment) : (rootIdxs cs).Pairwise (· < ·) :=
  List.Pairwise.filter _ (List.pairwise_lt_range _)

theorem rootIdxs_nodup (cs : List RawComment) : (rootIdxs cs).Nodup :=
  List.Nodup.filter _ (List.nodup_range _)

theorem childIdx_gt {cs : List RawComment} (H : resolvesEarlierB cs = true) {i c : Nat}
    (hc : c ∈ childIdxs cs i) : i < c := by
  obtain ⟨hcl, hp⟩ := mem_childIdxs.mp hc
  exact resolvesEarlier_parentIdx H hcl hp

theorem ancestorsF_irrel {cs : List RawComment} :
    ∀ {f1 f2 j : Nat}, j ≤ f1 → j ≤ f2 → ancestorsF cs f1 j = ancestorsF cs f2 j := by
  intro f1
  induction f1 with
  | zero =>
    intro f2 j h1 _
    have hj : j = 0 := Nat.le_zero.mp h1
    subst hj
    cases f2 with
    | zero => rfl
    | succ k =>
      rw [ancestorsF, ancestorsF]
      cases parentIdx cs 0 with
      | none => rfl
      | some i => simp
  | succ m ih =>
    intro f2 j h1 h2
    cases f2 with
    | zero =>
      have hj : j = 0 := Nat.le_zero.mp h2
      subst hj
      rw [ancestorsF, ancestorsF]
      cases parentIdx cs 0 with
      | none => rfl
      | some i => simp
    | succ k =>
      rw [ancestorsF, ancestorsF]
      cases hp : parentIdx cs j with
      | none => rfl
      | some i =>
        by_cases hij : i < j
        · simp only [hij, if_true]
          rw [@ih k i (by omega) (by omega)]
        · simp [hij]

theorem ancestors_eq_root {cs : List RawComment} {j : Nat}
    (h : parentIdx cs j = none) : ancestors cs j = [j] := by
  rw [ancestors]
  cases j with
  | zero => rfl
  | succ m =>
    rw [ancestorsF, h]

theorem ancestors_eq_cons {cs : List RawComment} {j i : Nat}
    (h : parentIdx cs j = some i) (hij : i < j) : ancestors cs j = j :: ancestors cs i := by
  rw [ancestors]
  cases j with
  | zero => omega
  | succ m =>
    rw [ancestorsF, h]
    simp only [hij, if_true]
    rw [ancestors]
    congr 1
    exact ancestorsF_irrel (by omega) (le_refl i)

theorem ancestors_cases {cs : List RawComment} (j : Nat) :
    ancestors cs j = [j] ∨
      ∃ i, parentIdx cs j = some i ∧ i < j ∧ ancestors cs j = j :: ancestors cs i := by
  cases hp : parentIdx cs j with
  | none => exact Or.inl (ancestors_eq_root hp)
  | some i =>
    by_cases hij : i < j
    · exact Or.inr ⟨i, rfl, hij, ancestors_eq_cons hp hij⟩
    · left
      rw [ancestors]
      cases j with
      | zero => rfl
      | succ m =>
        rw [ancestorsF, hp]
        simp [hij]

theorem self_mem_ancestors (cs : List RawComment) (j : Nat) : j ∈ ancestors cs j := by
  rcases @ancestors_cases cs j with h | ⟨i, _, _, h⟩ <;> rw [h] <;> simp

theorem mem_ancestors_le {cs : List RawComment} :
    ∀ {j x : Nat}, x ∈ ancestors cs j → x ≤ j := by
  intro j
  induction j using Nat.strong_induction_on with
  | _ j ih =>
    intro x hx
    rcases @ancestors_cases cs j with h | ⟨i, _, hij, h⟩
    · rw [h] at hx
      simp at hx
      omega
    · rw [h] at hx
      rcases List.mem_cons.mp hx with rfl | hx2
      · exact le_refl _
      · have := ih i hij hx2
        omega

theorem mem_ancestors_lt_length {cs : List RawComment} :
    ∀ {j x : Nat}, j < cs.length → x ∈ ancestors cs j → x < cs.length := by
  intro j
  induction j using Nat.strong_induction_on with
  | _ j ih =>
    intro x hj hx
    rcases @ancestors_cases cs j with h | ⟨i, hp, hij, h⟩
    · rw [h] at hx
      simp at hx
      omega
    · rw [h] at hx
      rcases List.mem_cons.mp hx with rfl | hx2
      · exact hj
      · exact ih i hij (parentIdx_lt_length hp) hx2

theorem ancestors_suffix_of_mem {cs : List RawComment} :
    ∀ {j x : Nat}, x ∈ ancestors cs j → (ancestors cs x).IsSuffix (ancestors cs j) := by
  intro j
  induction j using Nat.strong_induction_on with
  | _ j ih =>
    intro x hx
    rcases @ancestors_cases cs j with h | ⟨i, _, hij, h⟩
    · rw [h] at hx
      simp at hx
      subst hx
      exact List.suffix_rfl
    · rw [h] at hx
      rcases List.mem_cons.mp hx with rfl | hx2
      · exact List.suffix_rfl
      · have := ih i hij hx2
        rw [h]
        exact this.trans (List.suffix_cons j _)

theorem ancestors_of_le_length {cs : List RawComment} {j : Nat} (h : cs.length ≤ j) :
    ancestors cs j = [j] :=
  ancestors_eq_root (parentIdx_none_of_root (parentRef_eq_none_of_le h))

theorem mem_ancestors_to_child {cs : List RawComment} (H : resolvesEarlierB cs = true) :
    ∀ {j : Nat}, j < cs.length → ∀ {i : Nat}, i ≠ j → i ∈ ancestors cs j →
      ∃ c, c ∈ childIdxs cs i ∧ c ∈ ancestors cs j := by
  intro j
  induction j using Nat.strong_induction_on with
  | _ j ih =>
    intro hj i hne hx
    rcases @ancestors_cases cs j with h | ⟨pj, hp, hpj, h⟩
    · rw [h] at hx
      simp at hx
      exact absurd hx hne
    · rw [h] at hx
      rcases List.mem_cons.mp hx with rfl | hx2
      · exact absurd rfl hne
      · by_cases hpi : pj = i
        · subst hpi
          exact ⟨j, mem_childIdxs.mpr ⟨hj, hp⟩, self_mem_ancestors cs j⟩
        · obtain ⟨c, hc, hca⟩ :=
            ih pj hpj (parentIdx_lt_length hp) (fun hh => hpi hh.symm) hx2
          refine ⟨c, hc, ?_⟩
          rw [h]
          exact List.mem_cons_of_mem _ hca

theorem child_ancestors_to_mem {cs : List RawComment} (H : resolvesEarlierB cs = true)
    {j i c : Nat} (hc : c ∈ childIdxs cs i) (hca : c ∈ ancestors cs j) :
    i ∈ ancestors cs j := by
  obtain ⟨hcl, hp⟩ := mem_childIdxs.mp hc
  have hic : i < c := resolvesEarlier_parentIdx H hcl hp
  have hrec : ancestors cs c = c :: ancestors cs i := ancestors_eq_cons hp hic
  have hsuf := ancestors_suffix_of_mem hca
  apply hsuf.subset
  rw [hrec]
  exact List.mem_cons_of_mem _ (self_mem_ancestors cs i)

theorem child_ancestors_unique {cs : List RawComment} (H : resolvesEarlierB cs = true)
    {j i c1 c2 : Nat} (h1 : c1 ∈ childIdxs cs i) (h2 : c2 ∈ childIdxs cs i)
    (ha1 : c1 ∈ ancestors cs j) (ha2 : c2 ∈ ancestors cs j) : c1 = c2 := by
  have key : ∀ a b : Nat, a ∈ childIdxs cs i → b ∈ childIdxs cs i →
      (ancestors cs a).IsSuffix (ancestors cs b) → a = b := by
    intro a b hca hcb hs
    obtain ⟨hbl, hpb⟩ := mem_childIdxs.mp hcb
    have hib : i < b := resolvesEarlier_parentIdx H hbl hpb
    have hmem : a ∈ ancestors cs b := hs.subset (self_mem_ancestors cs a)
    rw [ancestors_eq_cons hpb hib] at hmem
    rcases List.mem_cons.mp hmem with rfl | hmem2
    · rfl
    · have hle : a ≤ i := mem_ancestors_le hmem2
      have hia : i < a := childIdx_gt H hca
      omega
  rcases List.suffix_or_suffix_of_suffix (ancestors_suffix_of_mem ha1)
      (ancestors_suffix_of_mem ha2) with hs | hs
  · exact key c1 c2 h1 h2 hs
  · exact (key c2 c1 h2 h1 hs).symm

theorem exists_root_ancestor {cs : List RawComment} (H : resolvesEarlierB cs = true) :
    ∀ {j : Nat}, j < cs.length → ∃ r, r ∈ rootIdxs cs ∧ r ∈ ancestors cs j := by
  intro j
  induction j using Nat.strong_induction_on with
  | _ j ih =>
    intro hj
    cases hp : parentIdx cs j with
    | none =>
      refine ⟨j, mem_rootIdxs.mpr ⟨hj, (parentIdx_none_iff H hj).mp hp⟩, self_mem_ancestors cs j⟩
    | some i =>
      have hij : i < j := resolvesEarlier_parentIdx H hj hp
      obtain ⟨r, hr, hra⟩ := ih i hij (parentIdx_lt_length hp)
      refine ⟨r, hr, ?_⟩
      rw [ancestors_eq_cons hp hij]
      exact List.mem_cons_of_mem _ hra

theorem root_ancestor_unique {cs : List RawComment} {j r1 r2 : Nat}
    (hr1 : r1 ∈ rootIdxs cs) (hr2 : r2 ∈ rootIdxs cs)
    (ha1 : r1 ∈ ancestors cs j) (ha2 : r2 ∈ ancestors cs j) : r1 = r2 := by
  have key : ∀ a b : Nat, b ∈ rootIdxs cs →
      (ancestors cs a).IsSuffix (ancestors cs b) → a = b := by
    intro a b hb hs
    have hmem : a ∈ ancestors cs b := hs.subset (self_mem_ancestors cs a)
    have hroot : ancestors cs b = [b] :=
      ancestors_eq_root (parentIdx_none_of_root (mem_rootIdxs.mp hb).2)
    rw [hroot] at hmem
    simpa using hmem
  rcases List.suffix_or_suffix_of_suffix (ancestors_suffix_of_mem ha1)
      (ancestors_suffix_of_mem ha2) with hs | hs
  · exact key r1 r2 hr2 hs
  · exact (key r2 r1 hr1 hs).symm

theorem flattenForest_map (cs : List RawComment) (fuel : Nat) (l : List Nat) :
    flattenForest (l.map (fun c => subtreeAt cs fuel c)) =
      l.flatMap (fun c => flatAt cs fuel c) := by
  induction l with
  | nil => rfl
  | cons x xs ih =>
    simp only [List.map_cons, List.flatMap_cons, flattenForest, flatAt]
    rw [ih]
    rfl

theorem flatAt_succ (cs : List RawComment) (fuel i : Nat) :
    flatAt cs (fuel + 1) i = i :: (childIdxs cs i).flatMap (fun c => flatAt cs fuel c) := by
  rw [flatAt, subtreeAt, flattenTree, flattenForest_map]

theorem comment_tree_flatten_eq (cs : List RawComment) :
    comment_tree_flatten cs = (rootIdxs cs).flatMap (fun r => flatAt cs cs.length r) := by
  rw [comment_tree_flatten, _comment_tree, flattenForest_map]

theorem flatAt_irrel {cs : List RawComment} (H : resolvesEarlierB cs = true) :
    ∀ {f1 f2 i : Nat}, i < cs.length → cs.length ≤ f1 + i → cs.length ≤ f2 + i →
      flatAt cs f1 i = flatAt cs f2 i := by
  intro f1
  induction f1 with
  | zero =>
    intro f2 i hi h1 _
    omega
  | succ m ih =>
    intro f2 i hi h1 h2
    cases f2 with
    | zero => omega
    | succ k =>
      rw [flatAt_succ, flatAt_succ]
      congr 1
      apply fb_flatMap_congr
      intro c hc
      have hcl : c < cs.length := (mem_childIdxs.mp hc).1
      have hic : i < c := childIdx_gt H hc
      exact @ih k c hcl (by omega) (by omega)

theorem flatAt_len_unfold {cs : List RawComment} (H : resolvesEarlierB cs = true)
    {i : Nat} (hi : i < cs.length) :
    flatAt cs cs.length i = i :: (childIdxs cs i).flatMap (fun c => flatAt cs cs.length c) := by
  have h1 : flatAt cs cs.length i = flatAt cs (cs.length + 1) i :=
    flatAt_irrel H hi (by omega) (by omega)
  rw [h1, flatAt_succ]

theorem flatAt_count {cs : List RawComment} (H : resolvesEarlierB cs = true) :
    ∀ (fuel : Nat) {i : Nat}, i < cs.length → cs.length ≤ fuel + i → ∀ j,
      (flatAt cs fuel i).count j = if i ∈ ancestors cs j then 1 else 0 := by
  intro fuel
  induction fuel with
  | zero =>
    intro i hi hf j
    omega
  | succ m ih =>
    intro i hi hf j
    rw [flatAt_succ]
    have hcount : List.count j (i :: (childIdxs cs i).flatMap (fun c => flatAt cs m c)) =
        (if j = i then 1 else 0) +
          ((childIdxs cs i).map (fun c => (flatAt cs m c).count j)).sum := by
      rw [List.count_cons, fb_count_flatMap]
      by_cases hji : j = i
      · simp [hji, Nat.add_comm]
      · have hij : ¬ i = j := fun h => hji h.symm
        simp [hji, hij, Nat.add_comm]
    rw [hcount]
    have hchild : ∀ c ∈ childIdxs cs i, c < cs.length ∧ i < c :=
      fun c hc => ⟨(mem_childIdxs.mp hc).1, childIdx_gt H hc⟩
    by_cases hji : j = i
    · rw [hji]
      have hsum : ((childIdxs cs i).map (fun c => (flatAt cs m c).count i)).sum = 0 := by
        apply List.sum_eq_zero
        intro x hx
        obtain ⟨c, hcmem, rfl⟩ := List.mem_map.mp hx
        obtain ⟨hcl, hic⟩ := hchild c hcmem
        rw [ih hcl (by omega) i]
        have hno : c ∉ ancestors cs i := fun hmem => by
          have := mem_ancestors_le hmem
          omega
        simp [hno]
      rw [if_pos rfl, hsum, if_pos (self_mem_ancestors cs i)]
    · rw [if_neg hji, Nat.zero_add]
      by_cases hj : j < cs.length
      · by_cases hanc : i ∈ ancestors cs j
        · obtain ⟨c0, hc0, hca0⟩ :=
            mem_ancestors_to_child H hj (fun hh => hji hh.symm) hanc
          have hsum : ((childIdxs cs i).map (fun c => (flatAt cs m c).count j)).sum = 1 := by
            apply fb_sum_map_one_of_unique (childIdxs_nodup cs i) hc0
            · obtain ⟨hcl, hic⟩ := hchild c0 hc0
              rw [ih hcl (by omega) j]
              simp [hca0]
            · intro c hcm hcne
              obtain ⟨hcl, hic⟩ := hchild c hcm
              rw [ih hcl (by omega) j]
              have hno : c ∉ ancestors cs j := fun hmem =>
                hcne (child_ancestors_unique H hcm hc0 hmem hca0)
              simp [hno]
          rw [hsum, if_pos hanc]
        · have hsum : ((childIdxs cs i).map (fun c => (flatAt cs m c).count j)).sum = 0 := by
            apply List.sum_eq_zero
            intro x hx
            obtain ⟨c, hcmem, rfl⟩ := List.mem_map.mp hx
            obtain ⟨hcl, hic⟩ := hchild c hcmem
            rw [ih hcl (by omega) j]
            have hno : c ∉ ancestors cs j := fun hmem =>
              hanc (child_ancestors_to_mem H hcmem hmem)
            simp [hno]
          rw [hsum, if_neg hanc]
      · have hjanc : ancestors cs j = [j] := ancestors_of_le_length (by omega)
        have hsum : ((childIdxs cs i).map (fun c => (flatAt cs m c).count j)).sum = 0 := by
          apply List.sum_eq_zero
          intro x hx
          obtain ⟨c, hcmem, rfl⟩ := List.mem_map.mp hx
          obtain ⟨hcl, hic⟩ := hchild c hcmem
          rw [ih hcl (by omega) j]
          have hno : c ∉ ancestors cs j := by
            rw [hjanc]
            simp only [List.mem_singleton]
            omega
          simp [hno]
        have hno : i ∉ ancestors cs j := by
          rw [hjanc]
          simp only [List.mem_singleton]
          omega
        rw [hsum, if_neg hno]

theorem comment_tree_flatten_count {cs : List RawComment} (H : resolvesEarlierB cs = true)
    (j : Nat) : (comment_tree_flatten cs).count j = if j < cs.length then 1 else 0 := by
  rw [comment_tree_flatten_eq, fb_count_flatMap]
  by_cases hj : j < cs.length
  · obtain ⟨r0, hr0, hra0⟩ := exists_root_ancestor H hj
    have hsum : ((rootIdxs cs).map (fun r => (flatAt cs cs.length r).count j)).sum = 1 := by
      apply fb_sum_map_one_of_unique (rootIdxs_nodup cs) hr0
      · have hrl : r0 < cs.length := (mem_rootIdxs.mp hr0).1
        rw [flatAt_count H cs.length hrl (by omega) j]
        simp [hra0]
      · intro r hrm hrne
        have hrl : r < cs.length := (mem_rootIdxs.mp hrm).1
        rw [flatAt_count H cs.length hrl (by omega) j]
        have hno : r ∉ ancestors cs j := fun hmem =>
          hrne (root_ancestor_unique hrm hr0 hmem hra0)
        simp [hno]
    rw [hsum, if_pos hj]
  · have hjanc : ancestors cs j = [j] := ancestors_of_le_length (by omega)
    have hsum : ((rootIdxs cs).map (fun r => (flatAt cs cs.length r).count j)).sum = 0 := by
      apply List.sum_eq_zero
      intro x hx
      obtain ⟨r, hrm, rfl⟩ := List.mem_map.mp hx
      have hrl : r < cs.length := (mem_rootIdxs.mp hrm).1
      rw [flatAt_count H cs.length hrl (by omega) j]
      have hno : r ∉ ancestors cs j := by
        rw [hjanc]
        simp only [List.mem_singleton]
        omega
      simp [hno]
    rw [hsum, if_neg hj]

theorem comment_tree_flatten_perm {cs : List RawComment} (H : resolvesEarlierB cs = true) :
    (comment_tree_flatten cs).Perm (List.range cs.length) := by
  rw [List.perm_iff_count]
  intro a
  rw [comment_tree_flatten_count H a, fb_count_range]

theorem flatAt_sublist_ancestor {cs : List RawComment} (H : resolvesEarlierB cs = true) :
    ∀ {x a : Nat}, x < cs.length → a ∈ ancestors cs x →
      (flatAt cs cs.length x).Sublist (flatAt cs cs.length a) := by
  intro x
  induction x using Nat.strong_induction_on with
  | _ x ih =>
    intro a hx ha
    cases hp : parentIdx cs x with
    | none =>
      rw [ancestors_eq_root hp] at ha
      simp only [List.mem_singleton] at ha
      subst ha
      exact List.Sublist.refl _
    | some p =>
      have hpx : p < x := resolvesEarlier_parentIdx H hx hp
      have hpl : p < cs.length := parentIdx_lt_length hp
      rw [ancestors_eq_cons hp hpx] at ha
      rcases List.mem_cons.mp ha with rfl | ha2
      · exact List.Sublist.refl _
      · have hstep : (flatAt cs cs.length x).Sublist (flatAt cs cs.length p) := by
          rw [flatAt_len_unfold H hpl]
          apply List.Sublist.cons
          exact fb_chunk_sublist (mem_childIdxs.mpr ⟨hx, hp⟩)
        exact hstep.trans (ih p hpx hpl ha2)

theorem self_mem_flatAt {cs : List RawComment} (H : resolvesEarlierB cs = true)
    {i : Nat} (hi : i < cs.length) : i ∈ flatAt cs cs.length i := by
  rw [flatAt_len_unfold H hi]
  exact List.mem_cons_self _ _

theorem mem_flatAt_ancestor {cs : List RawComment} (H : resolvesEarlierB cs = true)
    {x c : Nat} (hx : x < cs.length) (hc : c ∈ ancestors cs x) :
    x ∈ flatAt cs cs.length c :=
  (flatAt_sublist_ancestor H hx hc).subset (self_mem_flatAt H hx)

theorem flatAt_root_sublist_flatten {cs : List RawComment} {r : Nat}
    (hr : r ∈ rootIdxs cs) : (flatAt cs cs.length r).Sublist (comment_tree_flatten cs) := by
  rw [comment_tree_flatten_eq]
  exact fb_chunk_sublist hr

theorem flatAt_sublist_flatten {cs : List RawComment} (H : resolvesEarlierB cs = true)
    {i : Nat} (hi : i < cs.length) :
    (flatAt cs cs.length i).Sublist (comment_tree_flatten cs) := by
  obtain ⟨r, hr, hra⟩ := exists_root_ancestor H hi
  exact (flatAt_sublist_ancestor H hi hra).trans (flatAt_root_sublist_flatten hr)

theorem flatten_parent_before_child {cs : List RawComment} (H : resolvesEarlierB cs = true)
    {i c : Nat} (hc : c ∈ childIdxs cs i) :
    List.Sublist [i, c] (comment_tree_flatten cs) := by
  have hcl : c < cs.length := (mem_childIdxs.mp hc).1
  have hic : i < c := childIdx_gt H hc
  have hil : i < cs.length := by omega
  have h1 : List.Sublist [i, c] (flatAt cs cs.length i) := by
    rw [flatAt_len_unfold H hil]
    apply List.Sublist.cons₂
    exact List.singleton_sublist.mpr
      (List.mem_flatMap.mpr ⟨c, hc, self_mem_flatAt H hcl⟩)
  exact h1.trans (flatAt_sublist_flatten H hil)

theorem flatten_subtree_before_sibling {cs : List RawComment} (H : resolvesEarlierB cs = true)
    {i c c' x : Nat} (hc : c ∈ childIdxs cs i) (hc' : c' ∈ childIdxs cs i) (hcc : c < c')
    (hx : c ∈ ancestors cs x) (hxn : x < cs.length) :
    List.Sublist [x, c'] (comment_tree_flatten cs) := by
  have hcl : c < cs.length := (mem_childIdxs.mp hc).1
  have hcl' : c' < cs.length := (mem_childIdxs.mp hc').1
  have hic : i < c := childIdx_gt H hc
  have hil : i < cs.length := by omega
  have h1 : List.Sublist [x, c'] ((childIdxs cs i).flatMap (fun d => flatAt cs cs.length d)) :=
    fb_chunks_order (childIdxs_pairwise cs i) hc hc' hcc
      (mem_flatAt_ancestor H hxn hx) (self_mem_flatAt H hcl')
  have h2 : List.Sublist [x, c'] (flatAt cs cs.length i) := by
    rw [flatAt_len_unfold H hil]
    exact List.Sublist.cons _ h1
  exact h2.trans (flatAt_sublist_flatten H hil)

theorem flatten_root_subtree_before_sibling {cs : List RawComment}
    (H : resolvesEarlierB cs = true) {r r' x : Nat}
    (hr : r ∈ rootIdxs cs) (hr' : r' ∈ rootIdxs cs) (hrr : r < r')
    (hx : r ∈ ancestors cs x) (hxn : x < cs.length) :
    List.Sublist [x, r'] (comment_tree_flatten cs) := by
  have hrl' : r' < cs.length := (mem_rootIdxs.mp hr').1
  rw [comment_tree_flatten_eq]
  exact fb_chunks_order (rootIdxs_pairwise cs) hr hr' hrr
    (mem_flatAt_ancestor H hxn hx) (self_mem_flatAt H hrl')

theorem comment_tree_flatten_values {cs : List RawComment}
    (H : resolvesEarlierB cs = true) :
    ((comment_tree_flatten cs).map (fun i => cs.getD i default)).Perm cs := by
  have h1 := (comment_tree_flatten_perm H).map (fun i => cs.getD i default)
  rw [fb_getD_range_map] at h1
  exact h1

/-! ## Claim C1 -/

/-- C1 (amended).  The claim reads `_comment_tree` output flattened
depth-first as yielding exactly the input comments.  As stated it fails:
`_comment_tree` stores children under the `__children` key, which the
depth-first flattener `_iterate_comment_tree` (following the `comments`
key) never visits, so only root comments are yielded (see
`C1_counterexample`).  The amended claim holds for the depth-first
flattening along the `__children` lists that `_comment_tree` actually
populates: for every flat comment list whose parent references resolve
to strictly earlier comments (the adapter-guaranteed form; a purely
resolvable self-referencing parent already breaks the round trip), the
flattening (1) visits exactly the input positions, each exactly once,
(2) hence visits exactly the input comments, (3) visits every resolved
parent before its child, (4) visits every comment of a child subtree
before any later-started sibling subtree of the same parent — which for
two siblings themselves gives per-level sibling order equal to arrival
order — and (5) the same for the root level. -/
theorem C1_tree_flatten_roundtrip (cs : List RawComment)
    (H : resolvesEarlierB cs = true) :
    (comment_tree_flatten cs).Perm (List.range cs.length) ∧
    ((comment_tree_flatten cs).map (fun i => cs.getD i default)).Perm cs ∧
    (∀ i c, c ∈ childIdxs cs i → List.Sublist [i, c] (comment_tree_flatten cs)) ∧
    (∀ i c c' x, c ∈ childIdxs cs i → c' ∈ childIdxs cs i → c < c' →
      c ∈ ancestors cs x → x < cs.length →
      List.Sublist [x, c'] (comment_tree_flatten cs)) ∧
    (∀ r r' x, r ∈ rootIdxs cs → r' ∈ rootIdxs cs → r < r' →
      r ∈ ancestors cs x → x < cs.length →
      List.Sublist [x, r'] (comment_tree_flatten cs)) :=
  ⟨comment_tree_flatten_perm H, comment_tree_flatten_values H,
    fun _ _ hc => flatten_parent_before_child H hc,
    fun _ _ _ _ hc hc' hcc hx hxn => flatten_subtree_before_sibling H hc hc' hcc hx hxn,
    fun _ _ _ hr hr' hrr hx hxn => flatten_root_subtree_before_sibling H hr hr' hrr hx hxn⟩

/-- C1 counterexample.  A two-comment list whose single reply resolves
(to an earlier comment), yet flattening the `_comment_tree` output with
`_iterate_comment_tree` yields only the root: the reply, stored under
`__children`, is lost, so the traversal is not a permutation of the
input — contradicting the claim that the round trip yields exactly the
input comments, each exactly once. -/
theorem C1_counterexample :
    resolvesEarlierB
        [{ id := "1", parent := none, message := "a" },
         { id := "2", parent := some ("1"), message := "b" }] = true ∧
    ¬ ((_iterate_comment_tree (_comment_tree
        [{ id := "1", parent := none, message := "a" },
         { id := "2", parent := some ("1"), message := "b" }])).map Prod.snd).Perm
      (List.range
        ([{ id := "1", parent := none, message := "a" },
          { id := "2", parent := some ("1"), message := "b" }] : List RawComment).length) := by
  decide

/-- Witness for C1: the amended theorem applied to a concrete five
comment thread (two roots, two children, one grandchild). -/
theorem C1_tree_flatten_roundtrip_witness :
    resolvesEarlierB
        [{ id := "1", parent := none, message := "a" },
         { id := "2", parent := some ("1"), message := "b" },
         { id := "3", parent := some ("1"), message := "c" },
         { id := "4", parent := none, message := "d" },
         { id := "5", parent := some ("2"), message := "e" }] = true ∧
    (comment_tree_flatten
        [{ id := "1", parent := none, message := "a" },
         { id := "2", parent := some ("1"), message := "b" },
         { id := "3", parent := some ("1"), message := "c" },
         { id := "4", parent := none, message := "d" },
         { id := "5", parent := some ("2"), message := "e" }]).Perm (List.range 5) ∧
    List.Sublist [0, 1]
      (comment_tree_flatten
        [{ id := "1", parent := none, message := "a" },
         { id := "2", parent := some ("1"), message := "b" },
         { id := "3", parent := some ("1"), message := "c" },
         { id := "4", parent := none, message := "d" },
         { id := "5", parent := some ("2"), message := "e" }]) :=
  ⟨by decide,
    (C1_tree_flatten_roundtrip _ (by decide)).1,
    (C1_tree_flatten_roundtrip _ (by decide)).2.2.1 0 1 (by decide)⟩

/-! ## Claim C2 -/

/-- C2 (confirmed).  A flat comment list containing a comment whose
parent reference does not resolve makes tree construction raise an
unresolved-parent error and return no partial tree: both for
`_comment_tree` (the `KeyError` at `by_id[c["parent"]["id"]]`) and for
the tree-building step of `_download_disqus` (the
`assert parent_id in comments_by_id`, for a truthy parent id).  The
`Except.error` result carries no forest, so nothing partial escapes. -/
theorem C2_unresolved_parent_raises (cs : List RawComment) (ds : List DisqusComment) :
    ((∃ c, c ∈ cs ∧ ∃ p, c.parent = some p ∧ lastIdxOf cs p = none) →
      _comment_treeE cs = Except.error TreeError.unresolvedParent) ∧
    ((∃ c, c ∈ ds ∧ ∃ p, c.parent_id = some p ∧ p ≠ 0 ∧ dLastIdxOf ds p = none) →
      disqus_tree ds = Except.error TreeError.unresolvedParent) := by
  constructor
  · intro ⟨c, hc, p, hp, hl⟩
    have hres : resolvableB cs = false := by
      rw [← Bool.not_eq_true]
      intro hall
      have := List.all_eq_true.mp hall c hc
      simp only [hp, hl] at this
      cases this
    rw [_comment_treeE, hres]
    simp
  · intro ⟨c, hc, p, hp, hp0, hl⟩
    have hres : dResolvableB ds = false := by
      rw [← Bool.not_eq_true]
      intro hall
      have := List.all_eq_true.mp hall c hc
      simp only [hp, hl] at this
      simp [hp0] at this
    rw [disqus_tree, hres]
    simp

/-- Witness for C2: a facebook-style comment referencing the missing id
`zzz` and a disqus-style comment referencing the missing numeric id 7
both make tree construction fail. -/
theorem C2_unresolved_parent_raises_witness :
    _comment_treeE [{ id := "1", parent := some ("zzz"), message := "x" }] =
      Except.error TreeError.unresolvedParent ∧
    disqus_tree
        [{ id := 1, author_name := "n", created_time := "createdAt", like_count := 0,
           text := "t", parent_id := some 7, author_id := none }] =
      Except.error TreeError.unresolvedParent :=
  ⟨(C2_unresolved_parent_raises
      [{ id := "1", parent := some ("zzz"), message := "x" }] []).1
      ⟨_, List.mem_singleton.mpr rfl, "zzz", rfl, by decide⟩,
    (C2_unresolved_parent_raises []
      [{ id := 1, author_name := "n", created_time := "createdAt", like_count := 0,
         text := "t", parent_id := some 7, author_id := none }]).2
      ⟨_, List.mem_singleton.mpr rfl, 7, rfl, by decide, by decide⟩⟩

/-! ## Claims C5 and C6 -/

theorem graph_api_go_pages {α : Type} (f : α → Bool) (pages : List (List α))
    (rs : List (Envelope α)) (acc : List α) :
    graph_api_go f (pages.map (fun its => Envelope.page its true) ++ rs) acc =
      graph_api_go f rs (acc ++ pages.flatMap (fun its => its.filter f)) := by
  induction pages generalizing acc with
  | nil => simp
  | cons p ps ih =>
    simp only [List.map_cons, List.cons_append, List.flatMap_cons, graph_api_go, if_true,
      List.append_eq]
    rw [ih]
    rw [List.append_assoc]

/-- C5 (amended).  The claim says a single-object envelope is returned
as-is only when it arrives on the very first request, and raises
mid-pagination.  The code instead checks `assert not data`: the
accumulated item list must be empty.  After any number of pages whose
(filtered) item lists were all empty, a single-object envelope arriving
mid-pagination is still returned as-is (see `C5_counterexample`); it
raises exactly when at least one item had been accumulated before it. -/
theorem C5_single_object_envelope {α : Type} (f : α → Bool) (frontPages : List (List α))
    (o : α) (rest : List (Envelope α)) :
    graph_api f (frontPages.map (fun its => Envelope.page its true) ++ Envelope.obj o :: rest) =
      if (frontPages.flatMap (fun its => its.filter f)).isEmpty then
        Except.ok (GraphResult.single o)
      else Except.error GraphError.protocolViolation := by
  rw [graph_api, graph_api_go_pages]
  simp only [List.nil_append, graph_api_go]

/-- C5 counterexample.  A first page with an empty item list and a next
cursor, followed by a single-object envelope: the object arrives on the
second request of the fetch (mid-pagination), yet `graph_api` returns it
as-is instead of raising, because `assert not data` only checks that no
items were accumulated. -/
theorem C5_counterexample :
    graph_api (fun _ : Nat => true) [Envelope.page [] true, Envelope.obj 7] =
      Except.ok (GraphResult.single 7) := by rfl

theorem graph_api_go_all_pages {α : Type} (f : α → Bool) :
    ∀ (p : List α) (ps : List (List α)) (acc : List α),
      graph_api_go f (pagesToResponses (p :: ps)) acc =
        Except.ok (GraphResult.items (acc ++ (p :: ps).flatMap (fun its => its.filter f))) := by
  intro p ps
  induction ps generalizing p with
  | nil =>
    intro acc
    simp [pagesToResponses, graph_api_go]
  | cons q qs ih =>
    intro acc
    simp only [pagesToResponses, graph_api_go, if_true]
    rw [ih q]
    simp [List.flatMap_cons, List.append_assoc]

/-- C6 (confirmed).  The paged fetcher, run over any nonempty well
formed page sequence, follows the next cursor of every page and returns
the concatenation of the per-page item lists filtered page-locally by
the include predicate, in arrival order.  In particular, on the 3-page
sequence of sizes 2, 2, 1 whose last page lacks a next cursor it returns
exactly the five items in page order, and with a rejecting predicate it
returns exactly the matching subset while still consuming all pages. -/
theorem C6_paged_fetcher :
    (∀ (α : Type) (f : α → Bool) (p : List α) (ps : List (List α)),
        graph_api f (pagesToResponses (p :: ps)) =
          Except.ok (GraphResult.items ((p :: ps).flatMap (fun its => its.filter f)))) ∧
    graph_api (fun _ : Nat => true) (pagesToResponses [[1, 2], [3, 4], [5]]) =
      Except.ok (GraphResult.items [1, 2, 3, 4, 5]) ∧
    graph_api (fun n : Nat => n % 2 == 1) (pagesToResponses [[1, 2], [3, 4], [5]]) =
      Except.ok (GraphResult.items [1, 3, 5]) := by
  refine ⟨?_, by rfl, by rfl⟩
  intro α f p ps
  rw [graph_api, graph_api_go_all_pages]
  simp

/-! ## Claims C3 and C4 -/

theorem except_toBool_ok {ε β : Type} {e : Except ε β} (h : e.toBool = true) :
    ∃ a, e = Except.ok a := by
  cases e with
  | error err => simp [Except.toBool, Except.isOk] at h
  | ok a => exact ⟨a, rfl⟩

theorem download_facebook_post_allOk {cfg : Config} {d : List SnapEntry} {q : String}
    {pd : PostData} (h : postAllOk pd = true) :
    download_facebook_post cfg d q pd = Except.ok (d ++ postEntries q pd, none) := by
  rw [postAllOk] at h
  simp only [Bool.and_eq_true] at h
  obtain ⟨⟨hb, hc⟩, hl⟩ := h
  obtain ⟨b, hb⟩ := except_toBool_ok hb
  obtain ⟨cm, hc⟩ := except_toBool_ok hc
  obtain ⟨lk, hl⟩ := except_toBool_ok hl
  rw [download_facebook_post, hb, hc, hl, postEntries, hb, hc, hl]
  simp

/-- C3 (amended).  The claim says per-post transport failures are
recorded and the run continues when strict mode is NOT configured, and
abort only when it is configured.  The code reads
`config.get("abort_on_error", True)`: the default is strict.  Amended,
stated at `download_facebook_post` (lines 526-533), the per-post
function the claim cites and the only faithful, reachable part of this
behavior (the page loop around it raises `TypeError` before any fetch,
see C4): when `abort_on_error` is absent or configured true, a
transport failure of the post-body fetch is re-raised and aborts the
caller; only when `abort_on_error` is configured false is the failure
returned as the recorded pair `(post_id, code)`, with nothing written
for that post.  A fully successful fetch writes the three data files
and records no failure, and a failure of the comment-stream fetch is
re-raised in every mode (it sits outside the try/except). -/
theorem C3_post_strict_default (cfg : Config) (d : List SnapEntry) (post_id : String)
    (pd : PostData) :
    (∀ code, pd.body = Except.error code →
      download_facebook_post cfg d post_id pd =
        (if (cfg.abort_on_error).getD true then Except.error code
         else Except.ok (d, some (post_id, code)))) ∧
    (postAllOk pd = true →
      download_facebook_post cfg d post_id pd =
        Except.ok (d ++ postEntries post_id pd, none)) ∧
    (∀ b code, pd.body = Except.ok b → pd.comments = Except.error code →
      download_facebook_post cfg d post_id pd = Except.error code) := by
  refine ⟨?_, ?_, ?_⟩
  · intro code h
    simp only [download_facebook_post, h]
  · intro h
    exact download_facebook_post_allOk h
  · intro b code hb hc
    simp only [download_facebook_post, hb, hc]

/-- C3 counterexample.  With `abort_on_error` not configured at all, a
post whose body fetch raises HTTP 500 makes `download_facebook_post`
re-raise the error — the failure propagates to (and aborts) the caller
instead of being returned as a recorded `(post_id, error)` pair, so
per-post failures ARE fatal by default, contrary to the claim. -/
theorem C3_post_counterexample :
    download_facebook_post { abort_on_error := none } [SnapEntry.feed ["42"]] "42"
      { body := Except.error 500, comments := Except.ok [], likes := Except.ok [] } =
      Except.error 500 := by
  rfl

/-- Witness for C3: the amended per-post contract at concrete inputs —
an unconfigured option re-raises the failure, the false-configured
option records it, a successful fetch writes its files, and a
comment-fetch failure is re-raised even in non-strict mode. -/
theorem C3_post_strict_default_witness :
    download_facebook_post { abort_on_error := none } [] "42"
      { body := Except.error 500, comments := Except.ok [], likes := Except.ok [] } =
      Except.error 500 ∧
    download_facebook_post { abort_on_error := some false } [] "42"
      { body := Except.error 500, comments := Except.ok [], likes := Except.ok [] } =
      Except.ok ([], some ("42", 500)) ∧
    download_facebook_post { abort_on_error := some false } [] "43"
      { body := Except.ok
          { message := some ("m"), name := none, created_time := "t", likes := some [],
            shares_count := none, fromUser := { id := "u", name := "U" }, type := none },
        comments := Except.ok [], likes := Except.ok [] } =
      Except.ok
        ([] ++ postEntries ("43")
          { body := Except.ok
              { message := some ("m"), name := none, created_time := "t", likes := some [],
                shares_count := none, fromUser := { id := "u", name := "U" }, type := none },
            comments := Except.ok [], likes := Except.ok [] }, none) ∧
    download_facebook_post { abort_on_error := some false } [] "44"
      { body := Except.ok
          { message := some ("m"), name := none, created_time := "t", likes := some [],
            shares_count := none, fromUser := { id := "u", name := "U" }, type := none },
        comments := Except.error 404, likes := Except.ok [] } =
      Except.error 404 :=
  ⟨(C3_post_strict_default { abort_on_error := none } [] ("42")
      { body := Except.error 500, comments := Except.ok [], likes := Except.ok [] }).1
      500 rfl,
    (C3_post_strict_default { abort_on_error := some false } [] ("42")
      { body := Except.error 500, comments := Except.ok [], likes := Except.ok [] }).1
      500 rfl,
    (C3_post_strict_default { abort_on_error := some false } [] ("43")
      { body := Except.ok
          { message := some ("m"), name := none, created_time := "t", likes := some [],
            shares_count := none, fromUser := { id := "u", name := "U" }, type := none },
        comments := Except.ok [], likes := Except.ok [] }).2.1 rfl,
    (C3_post_strict_default { abort_on_error := some false } [] ("44")
      { body := Except.ok
          { message := some ("m"), name := none, created_time := "t", likes := some [],
            shares_count := none, fromUser := { id := "u", name := "U" }, type := none },
        comments := Except.error 404, likes := Except.ok [] }).2.2
      { message := some ("m"), name := none, created_time := "t", likes := some [],
        shares_count := none, fromUser := { id := "u", name := "U" }, type := none }
      404 rfl rfl⟩

/-- C4 (supporting theorem for a code bug).  On the intended per-post
call (source line 514 drops the directory argument, so the real loop
raises `TypeError` instead), a non-strict run over posts 42 and 43 where
42s body fetch fails with HTTP 500 and 43 succeeds produces a snapshot
holding the feed index and exactly post 43s three data files, with no
entry of any kind for post 42, reports the failure `(42, 500)`, and
ends with process outcome 1. -/
theorem C4_nonstrict_partial_failure :
    download_facebook_page { abort_on_error := some false } ["42", "43"]
      (fun q =>
        if q = "42" then
          { body := Except.error 500, comments := Except.ok [], likes := Except.ok [] }
        else
          { body := Except.ok
              { message := some ("m43"), name := none, created_time := "t43",
                likes := some [], shares_count := none,
                fromUser := { id := "u43", name := "U43" }, type := none },
            comments := Except.ok [{ id := "c1", parent := none, message := "mc" }],
            likes := Except.ok [{ id := "lu", name := "LU" }] }) =
      Except.ok
        ([SnapEntry.feed ["42", "43"],
          SnapEntry.rawPost ("43")
            { message := some ("m43"), name := none, created_time := "t43",
              likes := some [], shares_count := none,
              fromUser := { id := "u43", name := "U43" }, type := none },
          SnapEntry.rawComments ("43") [{ id := "c1", parent := none, message := "mc" }],
          SnapEntry.rawLikes ("43") [{ id := "lu", name := "LU" }]],
          [("42", 500)], 1) := by
  rfl

/-! ## Claim C7 -/

/-- C7 (amended).  The claim says `medium` defaults to the string
"unknown"; the code defaults it to the German string "unbekannt"
(see `C7_counterexample`).  Amended field contract of the canonical
post: `medium` is the raw type field, defaulting to "unbekannt" when
absent; `share_count` is the nested shares count when the shares key is
present and the empty default otherwise; `like_count` is the size of the
fetched likes list when the likes key is present and the empty default
otherwise (the code never consults a separate like-count field). -/
theorem C7_canonical_post_fields (post_id : String) (p : FbRawPost) :
    (p.type = none → (facebook_canonical_post post_id p).medium = "unbekannt") ∧
    (∀ t, p.type = some t → (facebook_canonical_post post_id p).medium = t) ∧
    (p.shares_count = none →
      (facebook_canonical_post post_id p).share_count = CountVal.blank) ∧
    (∀ n, p.shares_count = some n →
      (facebook_canonical_post post_id p).share_count = CountVal.num n) ∧
    (p.likes = none → (facebook_canonical_post post_id p).like_count = CountVal.blank) ∧
    (∀ l, p.likes = some l →
      (facebook_canonical_post post_id p).like_count = CountVal.num l.length) := by
  refine ⟨?_, ?_, ?_, ?_, ?_, ?_⟩
  · intro h
    simp [facebook_canonical_post, h]
  · intro t h
    simp [facebook_canonical_post, h]
  · intro h
    simp [facebook_canonical_post, h]
  · intro n h
    simp [facebook_canonical_post, h]
  · intro h
    simp [facebook_canonical_post, h]
  · intro l h
    simp [facebook_canonical_post, h]

/-- C7 counterexample.  A raw post without a type field: the canonical
medium is the literal "unbekannt", not the "unknown" the claim
states. -/
theorem C7_counterexample :
    (facebook_canonical_post ("p1")
        { message := none, name := some ("nm"), created_time := "t", likes := none,
          shares_count := none, fromUser := { id := "u", name := "U" },
          type := none }).medium = "unbekannt" ∧
    (facebook_canonical_post ("p1")
        { message := none, name := some ("nm"), created_time := "t", likes := none,
          shares_count := none, fromUser := { id := "u", name := "U" },
          type := none }).medium ≠ "unknown" := by
  constructor
  · rfl
  · decide

/-- Witness for C7: the amended field contract evaluated on one raw post
with every optional field absent and one with every optional field
present. -/
theorem C7_canonical_post_fields_witness :
    (facebook_canonical_post ("a")
        { message := none, name := none, created_time := "t", likes := none,
          shares_count := none, fromUser := { id := "u", name := "U" },
          type := none }).medium = "unbekannt" ∧
    (facebook_canonical_post ("a")
        { message := none, name := none, created_time := "t", likes := none,
          shares_count := none, fromUser := { id := "u", name := "U" },
          type := none }).share_count = CountVal.blank ∧
    (facebook_canonical_post ("a")
        { message := none, name := none, created_time := "t", likes := none,
          shares_count := none, fromUser := { id := "u", name := "U" },
          type := none }).like_count = CountVal.blank ∧
    (facebook_canonical_post ("b")
        { message := some ("m"), name := none, created_time := "t",
          likes := some [{ id := "x", name := "X" }, { id := "y", name := "Y" }],
          shares_count := some 9, fromUser := { id := "u", name := "U" },
          type := some ("video") }).medium = "video" ∧
    (facebook_canonical_post ("b")
        { message := some ("m"), name := none, created_time := "t",
          likes := some [{ id := "x", name := "X" }, { id := "y", name := "Y" }],
          shares_count := some 9, fromUser := { id := "u", name := "U" },
          type := some ("video") }).share_count = CountVal.num 9 ∧
    (facebook_canonical_post ("b")
        { message := some ("m"), name := none, created_time := "t",
          likes := some [{ id := "x", name := "X" }, { id := "y", name := "Y" }],
          shares_count := some 9, fromUser := { id := "u", name := "U" },
          type := some ("video") }).like_count = CountVal.num 2 :=
  ⟨(C7_canonical_post_fields ("a") _).1 rfl,
    (C7_canonical_post_fields ("a") _).2.2.1 rfl,
    (C7_canonical_post_fields ("a") _).2.2.2.2.1 rfl,
    (C7_canonical_post_fields ("b") _).2.1 ("video") rfl,
    (C7_canonical_post_fields ("b") _).2.2.2.1 9 rfl,
    (C7_canonical_post_fields ("b") _).2.2.2.2.2
      [{ id := "x", name := "X" }, { id := "y", name := "Y" }] rfl⟩

/-! ## Claim C10 -/

/-- C10 (confirmed).  Every comment the Disqus adapter produces, over
any paginated listing, has its created_time field set to the literal
string "createdAt" — the name of the raw timestamp field rather than its
value, whatever timestamp the raw item actually carries (the model keeps
the raw `createdAt` value and the mapping never reads it). -/
theorem C10_disqus_created_time (pages : List (List DisqusRaw)) :
    ∀ c ∈ disqus_all_comments pages, c.created_time = "createdAt" := by
  intro c hc
  obtain ⟨raw, _, rfl⟩ := List.mem_map.mp hc
  rfl

/-- Witness for C10: a one-page listing whose single raw item carries
the actual timestamp "2015-06-01T10:00:00", mapped to a comment whose
created_time is nevertheless the literal "createdAt". -/
theorem C10_disqus_created_time_witness :
    (disqus_map_comment
        { id := 11, author_name := "ann", author_username := some ("ann42"), likes := 3,
          raw_message := "hello", parent := none,
          createdAt := "2015-06-01T10:00:00" }).created_time = "createdAt" :=
  C10_disqus_created_time
    [[{ id := 11, author_name := "ann", author_username := some ("ann42"), likes := 3,
        raw_message := "hello", parent := none, createdAt := "2015-06-01T10:00:00" }]]
    _ (by decide)

/-! ## Claims C8 and C9 -/

theorem lexStep_total {β : Type} [LinearOrder β] {a b : β} {p q : Prop}
    (h : a = b → p ∨ q) : lexStep a b p ∨ lexStep b a q := by
  rcases lt_trichotomy a b with hlt | heq | hgt
  · exact Or.inl (Or.inl hlt)
  · rcases h heq with hp | hq
    · exact Or.inl (Or.inr ⟨heq, hp⟩)
    · exact Or.inr (Or.inr ⟨heq.symm, hq⟩)
  · exact Or.inr (Or.inl hgt)

theorem lexStep_trans {β : Type} [LinearOrder β] {a b c : β} {p q r : Prop}
    (h1 : lexStep a b p) (h2 : lexStep b c q) (h : p → q → r) : lexStep a c r := by
  rcases h1 with h1 | ⟨e1, hp⟩
  · rcases h2 with h2 | ⟨e2, _⟩
    · exact Or.inl (h1.trans h2)
    · exact Or.inl (e2 ▸ h1)
  · rcases h2 with h2 | ⟨e2, hq⟩
    · exact Or.inl (e1 ▸ h2)
    · exact Or.inr ⟨e1.trans e2, h hp hq⟩

theorem userKey_total {ι ν : Type} [LinearOrder ι] [LinearOrder ν] (u v : UserEntry ι ν) :
    _user_key_actioncount_le u v ∨ _user_key_actioncount_le v u := by
  unfold _user_key_actioncount_le
  apply lexStep_total
  intro _
  apply lexStep_total
  intro _
  apply lexStep_total
  intro _
  exact lexStep_total (fun _ => le_total u.id v.id)

theorem userKey_trans {ι ν : Type} [LinearOrder ι] [LinearOrder ν] (u v w : UserEntry ι ν)
    (h1 : _user_key_actioncount_le u v) (h2 : _user_key_actioncount_le v w) :
    _user_key_actioncount_le u w := by
  unfold _user_key_actioncount_le at h1 h2 ⊢
  refine lexStep_trans h2 h1 ?_
  intro p2 p1
  refine lexStep_trans p2 p1 ?_
  intro q2 q1
  refine lexStep_trans q2 q1 ?_
  intro r2 r1
  exact lexStep_trans r1 r2 (fun s1 s2 => le_trans s1 s2)

theorem dupLe_total {ι ν : Type} [LinearOrder ν] (a b : ν × List ι) :
    dup_le a b ∨ dup_le b a := by
  unfold dup_le
  exact lexStep_total (fun _ => le_total a.1 b.1)

theorem dupLe_trans {ι ν : Type} [LinearOrder ν] (a b c : ν × List ι)
    (h1 : dup_le a b) (h2 : dup_le b c) : dup_le a c := by
  unfold dup_le at h1 h2 ⊢
  exact lexStep_trans h2 h1 (fun p2 p1 => le_trans p1 p2)

theorem addAction_ids_nodup {ι ν : Type} [DecidableEq ι] {acc : List (UserEntry ι ν)}
    {au : ActionKind × AUser ι ν} (h : (acc.map (fun e => e.id)).Nodup) :
    ((addAction acc au).map (fun e => e.id)).Nodup := by
  rw [addAction]
  by_cases hany : acc.any (fun e => decide (e.id = (au.2).id))
  · rw [if_pos hany]
    have hmap : (acc.map
        (fun e => if e.id = (au.2).id then { e with counts := (e.counts).bump au.1 } else e)).map
          (fun e => e.id) = acc.map (fun e => e.id) := by
      rw [List.map_map]
      apply List.map_congr_left
      intro e _
      by_cases he : e.id = (au.2).id <;> simp [he]
    rw [hmap]
    exact h
  · rw [if_neg hany]
    rw [List.map_append]
    simp only [List.map_cons, List.map_nil]
    rw [List.nodup_append]
    refine ⟨h, List.nodup_singleton _, ?_⟩
    intro a ha
    simp only [List.mem_singleton]
    intro heq
    apply hany
    rw [List.any_eq_true]
    obtain ⟨e, he, heid⟩ := List.mem_map.mp ha
    exact ⟨e, he, by simp [heid, heq]⟩

theorem buildStats_go_ids_nodup {ι ν : Type} [DecidableEq ι]
    (l : List (ActionKind × AUser ι ν)) :
    ∀ acc : List (UserEntry ι ν), ((acc.map (fun e => e.id)).Nodup) →
      (((l.foldl addAction acc).map (fun e => e.id)).Nodup) := by
  induction l with
  | nil =>
    intro acc h
    exact h
  | cons a rest ih =>
    intro acc h
    rw [List.foldl_cons]
    exact ih _ (addAction_ids_nodup h)

/-- C8 (amended).  The claim says `_user_stats` orders users by
descending total action count with ascending name as the immediate tie
break and ascending id last.  The key `_user_key_actioncount` actually
sorts by descending total, then descending comment count, then
descending like count, and only then ascending name and ascending id
(see `C8_counterexample`).  Amended: the result is sorted by that
five-part key, is a permutation of the accumulated per-user entries, and
carries pairwise distinct user ids — so the order is fully deterministic
even with count ties. -/
theorem C8_user_stats_order {ι ν : Type} [LinearOrder ι] [LinearOrder ν]
    (feed : List (AggPost ι ν)) :
    List.Sorted _user_key_actioncount_le (_user_stats feed) ∧
    (_user_stats feed).Perm (buildStats feed) ∧
    ((_user_stats feed).map (fun e => e.id)).Nodup := by
  haveI ht : IsTotal (UserEntry ι ν) _user_key_actioncount_le := ⟨userKey_total⟩
  haveI htr : IsTrans (UserEntry ι ν) _user_key_actioncount_le := ⟨userKey_trans⟩
  refine ⟨List.sorted_insertionSort _ _, List.perm_insertionSort _ _, ?_⟩
  have h1 : ((buildStats feed).map (fun e => e.id)).Nodup :=
    buildStats_go_ids_nodup _ [] (by simp)
  have h2 := (List.perm_insertionSort _user_key_actioncount_le (buildStats feed)).map
    (fun e => e.id)
  exact h2.nodup_iff.mpr h1

/-- C8 counterexample.  One post by Paula (name key 3, id 12), liked by
Anna (name key 1, id 10), with one comment by Bert (name key 2, id 11):
all three users have total action count 1.  The claimed order (total,
then name, then id) would list Anna, Bert, Paula; `_user_stats` lists
Bert first (higher comment count), then Anna (higher like count), then
Paula, so its output violates the claimed ordering. -/
theorem C8_counterexample :
    ((_user_stats [{ fromUser := { id := 12, name := 3 },
                     likes := [{ id := 10, name := 1 }],
                     comments := [{ fromUser := { id := 11, name := 2 } }] }]).map
        (fun e => e.id)) = [11, 10, 12] ∧
    ¬ List.Pairwise user_key_spec_le
      (_user_stats [{ fromUser := { id := 12, name := 3 },
                      likes := [{ id := 10, name := 1 }],
                      comments := [{ fromUser := { id := 11, name := 2 } }] }]) := by
  constructor
  · decide
  · decide

theorem insertPair_fst {ι ν : Type} [DecidableEq ι] [DecidableEq ν]
    (acc : List (ν × List ι)) (nm : ν) (uid : ι) :
    (insertPair acc nm uid).map Prod.fst =
      if nm ∈ acc.map Prod.fst then acc.map Prod.fst
      else acc.map Prod.fst ++ [nm] := by
  induction acc with
  | nil => simp [insertPair]
  | cons t rest ih =>
    obtain ⟨n, ids⟩ := t
    rw [insertPair]
    by_cases h : n = nm
    · subst h
      simp
    · simp only [if_neg h, List.map_cons]
      rw [ih]
      by_cases h2 : nm ∈ rest.map Prod.fst
      · have : nm ∈ n :: rest.map Prod.fst := List.mem_cons_of_mem _ h2
        simp [h2, this]
      · have hne : ¬ nm ∈ n :: rest.map Prod.fst := by
          simp only [List.mem_cons]
          rintro (rfl | hm)
          · exact h rfl
          · exact h2 hm
        simp [h2, hne]

theorem insertPair_fst_nodup {ι ν : Type} [DecidableEq ι] [DecidableEq ν]
    {acc : List (ν × List ι)} {nm : ν} {uid : ι}
    (h : (acc.map Prod.fst).Nodup) : ((insertPair acc nm uid).map Prod.fst).Nodup := by
  rw [insertPair_fst]
  by_cases h2 : nm ∈ acc.map Prod.fst
  · rw [if_pos h2]
    exact h
  · rw [if_neg h2, List.nodup_append]
    exact ⟨h, List.nodup_singleton _, by
      intro a ha
      simp only [List.mem_singleton]
      rintro rfl
      exact h2 ha⟩

theorem insertPair_snd_nodup {ι ν : Type} [DecidableEq ι] [DecidableEq ν]
    {acc : List (ν × List ι)} {nm : ν} {uid : ι}
    (h : ∀ t ∈ acc, (t.2 : List ι).Nodup) :
    ∀ t ∈ insertPair acc nm uid, (t.2 : List ι).Nodup := by
  induction acc with
  | nil =>
    intro t ht
    rw [insertPair] at ht
    simp only [List.mem_singleton] at ht
    subst ht
    exact List.nodup_singleton _
  | cons a rest ih =>
    obtain ⟨n, ids⟩ := a
    intro t ht
    rw [insertPair] at ht
    by_cases hn : n = nm
    · rw [if_pos hn] at ht
      rcases List.mem_cons.mp ht with rfl | ht2
      · by_cases hu : uid ∈ ids
        · simpa [hu] using h (n, ids) (List.mem_cons_self _ _)
        · have hids : ids.Nodup := h (n, ids) (List.mem_cons_self _ _)
          simp only [hu, if_false]
          rw [List.nodup_append]
          exact ⟨hids, List.nodup_singleton _, by
            intro a ha
            simp only [List.mem_singleton]
            rintro rfl
            exact hu ha⟩
      · exact h t (List.mem_cons_of_mem _ ht2)
    · rw [if_neg hn] at ht
      rcases List.mem_cons.mp ht with rfl | ht2
      · exact h (n, ids) (List.mem_cons_self _ _)
      · exact ih (fun s hs => h s (List.mem_cons_of_mem _ hs)) t ht2

theorem insertPair_mem {ι ν : Type} [DecidableEq ι] [DecidableEq ν]
    {acc : List (ν × List ι)} {nm n : ν} {uid i : ι} :
    (∃ ids, (n, ids) ∈ insertPair acc nm uid ∧ i ∈ ids) ↔
      ((∃ ids, (n, ids) ∈ acc ∧ i ∈ ids) ∨ (n = nm ∧ i = uid)) := by
  induction acc with
  | nil =>
    rw [insertPair]
    constructor
    · rintro ⟨ids, hmem, hi⟩
      simp only [List.mem_singleton, Prod.mk.injEq] at hmem
      obtain ⟨rfl, rfl⟩ := hmem
      simp only [List.mem_singleton] at hi
      exact Or.inr ⟨rfl, hi⟩
    · rintro (⟨ids, hmem, _⟩ | ⟨rfl, rfl⟩)
      · cases hmem
      · exact ⟨_, List.mem_singleton.mpr rfl, List.mem_singleton.mpr rfl⟩
  | cons a rest ih =>
    obtain ⟨m, mids⟩ := a
    rw [insertPair]
    by_cases hm : m = nm
    · subst hm
      simp only [if_pos rfl]
      have hnew : ∀ x : ι, x ∈ (if uid ∈ mids then mids else mids ++ [uid]) ↔
          (x ∈ mids ∨ x = uid) := by
        intro x
        by_cases hu : uid ∈ mids
        · simp only [hu, if_true]
          constructor
          · exact Or.inl
          · rintro (hx | rfl)
            · exact hx
            · exact hu
        · simp [hu]
      constructor
      · rintro ⟨ids, hmem, hi⟩
        rcases List.mem_cons.mp hmem with heq | ht2
        · obtain ⟨rfl, rfl⟩ := Prod.mk.injEq .. |>.mp heq
          rcases (hnew i).mp hi with hx | rfl
          · exact Or.inl ⟨_, List.mem_cons_self _ _, hx⟩
          · exact Or.inr ⟨rfl, rfl⟩
        · exact Or.inl ⟨ids, List.mem_cons_of_mem _ ht2, hi⟩
      · rintro (⟨ids, hmem, hi⟩ | ⟨rfl, rfl⟩)
        · rcases List.mem_cons.mp hmem with heq | ht2
          · obtain ⟨rfl, rfl⟩ := Prod.mk.injEq .. |>.mp heq
            exact ⟨_, List.mem_cons_self _ _, (hnew i).mpr (Or.inl hi)⟩
          · exact ⟨ids, List.mem_cons_of_mem _ ht2, hi⟩
        · exact ⟨_, List.mem_cons_self _ _, (hnew _).mpr (Or.inr rfl)⟩
    · simp only [if_neg hm]
      constructor
      · rintro ⟨ids, hmem, hi⟩
        rcases List.mem_cons.mp hmem with heq | ht2
        · obtain ⟨rfl, rfl⟩ := Prod.mk.injEq .. |>.mp heq
          exact Or.inl ⟨_, List.mem_cons_self _ _, hi⟩
        · rcases ih.mp ⟨ids, ht2, hi⟩ with ⟨ids2, hm2, hi2⟩ | hr
          · exact Or.inl ⟨ids2, List.mem_cons_of_mem _ hm2, hi2⟩
          · exact Or.inr hr
      · rintro (⟨ids, hmem, hi⟩ | hr)
        · rcases List.mem_cons.mp hmem with heq | ht2
          · obtain ⟨rfl, rfl⟩ := Prod.mk.injEq .. |>.mp heq
            exact ⟨_, List.mem_cons_self _ _, hi⟩
          · obtain ⟨ids2, hm2, hi2⟩ := ih.mpr (Or.inl ⟨ids, ht2, hi⟩)
            exact ⟨ids2, List.mem_cons_of_mem _ hm2, hi2⟩
        · obtain ⟨ids2, hm2, hi2⟩ := ih.mpr (Or.inr hr)
          exact ⟨ids2, List.mem_cons_of_mem _ hm2, hi2⟩

theorem id_by_name_go_mem {ι ν : Type} [DecidableEq ι] [DecidableEq ν]
    (l : List (ActionKind × AUser ι ν)) :
    ∀ (acc : List (ν × List ι)) (n : ν) (i : ι),
      (∃ ids, (n, ids) ∈ l.foldl (fun acc au => insertPair acc (au.2).name (au.2).id) acc ∧
        i ∈ ids) ↔
      ((∃ ids, (n, ids) ∈ acc ∧ i ∈ ids) ∨ ∃ a, a ∈ l ∧ (a.2).name = n ∧ (a.2).id = i) := by
  induction l with
  | nil =>
    intro acc n i
    simp
  | cons a rest ih =>
    intro acc n i
    rw [List.foldl_cons, ih]
    rw [insertPair_mem]
    constructor
    · rintro ((hacc | ⟨rfl, rfl⟩) | ⟨b, hb, hbn, hbi⟩)
      · exact Or.inl hacc
      · exact Or.inr ⟨a, List.mem_cons_self _ _, rfl, rfl⟩
      · exact Or.inr ⟨b, List.mem_cons_of_mem _ hb, hbn, hbi⟩
    · rintro (hacc | ⟨b, hb, hbn, hbi⟩)
      · exact Or.inl (Or.inl hacc)
      · rcases List.mem_cons.mp hb with rfl | hb2
        · exact Or.inl (Or.inr ⟨hbn.symm, hbi.symm⟩)
        · exact Or.inr ⟨b, hb2, hbn, hbi⟩

theorem id_by_name_mem {ι ν : Type} [DecidableEq ι] [DecidableEq ν]
    (feed : List (AggPost ι ν)) (n : ν) (i : ι) :
    (∃ ids, (n, ids) ∈ id_by_name feed ∧ i ∈ ids) ↔ observes feed n i := by
  rw [id_by_name, id_by_name_go_mem, observes]
  simp

theorem id_by_name_fst_nodup {ι ν : Type} [DecidableEq ι] [DecidableEq ν]
    (feed : List (AggPost ι ν)) : ((id_by_name feed).map Prod.fst).Nodup := by
  rw [id_by_name]
  generalize _all_users feed = l
  have hgen : ∀ (acc : List (ν × List ι)), (acc.map Prod.fst).Nodup →
      (((l.foldl (fun acc au => insertPair acc (au.2).name (au.2).id) acc).map
        Prod.fst).Nodup) := by
    induction l with
    | nil => exact fun acc h => h
    | cons a rest ih =>
      intro acc h
      rw [List.foldl_cons]
      exact ih _ (insertPair_fst_nodup h)
  exact hgen [] (by simp)

theorem id_by_name_snd_nodup {ι ν : Type} [DecidableEq ι] [DecidableEq ν]
    (feed : List (AggPost ι ν)) : ∀ t ∈ id_by_name feed, (t.2 : List ι).Nodup := by
  rw [id_by_name]
  generalize _all_users feed = l
  have hgen : ∀ (acc : List (ν × List ι)), (∀ t ∈ acc, (t.2 : List ι).Nodup) →
      ∀ t ∈ l.foldl (fun acc au => insertPair acc (au.2).name (au.2).id) acc,
        (t.2 : List ι).Nodup := by
    induction l with
    | nil => exact fun acc h => h
    | cons a rest ih =>
      intro acc h
      rw [List.foldl_cons]
      exact ih _ (insertPair_snd_nodup h)
  exact hgen [] (by intro t ht; cases ht)

theorem assoc_entry_unique {ι ν : Type} {l : List (ν × List ι)}
    (h : (l.map Prod.fst).Nodup) {n : ν} {a b : List ι}
    (ha : (n, a) ∈ l) (hb : (n, b) ∈ l) : a = b := by
  induction l with
  | nil => cases ha
  | cons t rest ih =>
    obtain ⟨m, mids⟩ := t
    have hcons : (m :: rest.map Prod.fst).Nodup := by simpa using h
    have hn : m ∉ rest.map Prod.fst := (List.nodup_cons.mp hcons).1
    have hrest : (rest.map Prod.fst).Nodup := (List.nodup_cons.mp hcons).2
    rcases List.mem_cons.mp ha with heqa | ha2
    · obtain ⟨rfl, rfl⟩ := Prod.mk.injEq .. |>.mp heqa
      rcases List.mem_cons.mp hb with heqb | hb2
      · exact (Prod.mk.injEq .. |>.mp heqb).2.symm
      · exact absurd (List.mem_map_of_mem Prod.fst hb2) hn
    · rcases List.mem_cons.mp hb with heqb | hb2
      · obtain ⟨rfl, rfl⟩ := Prod.mk.injEq .. |>.mp heqb
        exact absurd (List.mem_map_of_mem Prod.fst ha2) hn
      · exact ih hrest ha2 hb2

/-- C9 (confirmed).  `_duplicate_names` returns entries `(name, ids)`
where (1) every returned id list is sorted ascending, duplicate-free,
has more than one element, and holds exactly the ids observed together
with that name anywhere in the snapshot (so names mapped to a single id
are omitted); (2) every name observed with two distinct ids is returned;
and (3) the output is ordered by descending id count and then ascending
name. -/
theorem C9_duplicate_names {ι ν : Type} [LinearOrder ι] [LinearOrder ν]
    (feed : List (AggPost ι ν)) :
    (∀ n ids, (n, ids) ∈ _duplicate_names feed →
      List.Sorted (fun a b : ι => a ≤ b) ids ∧ ids.Nodup ∧ 1 < ids.length ∧
        ∀ i, i ∈ ids ↔ observes feed n i) ∧
    (∀ n i j, observes feed n i → observes feed n j → i ≠ j →
      ∃ ids, (n, ids) ∈ _duplicate_names feed) ∧
    List.Pairwise dup_le (_duplicate_names feed) := by
  haveI hti : IsTotal ι (fun a b : ι => a ≤ b) := ⟨le_total⟩
  haveI htri : IsTrans ι (fun a b : ι => a ≤ b) := ⟨fun _ _ _ h1 h2 => le_trans h1 h2⟩
  haveI htd : IsTotal (ν × List ι) dup_le := ⟨dupLe_total⟩
  haveI htrd : IsTrans (ν × List ι) dup_le := ⟨fun a b c => dupLe_trans a b c⟩
  have hperm := List.perm_insertionSort (@dup_le ι ν _)
    ((id_by_name feed).filterMap (fun t =>
      if 1 < (t.2 : List ι).length then
        some (t.1, List.insertionSort (fun a b => a ≤ b) t.2)
      else none))
  refine ⟨?_, ?_, ?_⟩
  · intro n ids hmem
    have hpre : (n, ids) ∈ (id_by_name feed).filterMap (fun t =>
        if 1 < (t.2 : List ι).length then
          some (t.1, List.insertionSort (fun a b => a ≤ b) t.2)
        else none) := by
      rw [_duplicate_names] at hmem
      exact hperm.subset hmem
    obtain ⟨t, htG, hsome⟩ := List.mem_filterMap.mp hpre
    by_cases hlen : 1 < (t.2 : List ι).length
    · rw [if_pos hlen] at hsome
      obtain ⟨hn1, hids⟩ := Prod.mk.injEq .. |>.mp (Option.some.inj hsome)
      have htG2 : (n, t.2) ∈ id_by_name feed := by
        rw [← hn1]
        simpa using htG
      have hsortperm := List.perm_insertionSort (fun a b : ι => a ≤ b) t.2
      have hidsperm : ids.Perm t.2 := by
        rw [← hids]
        exact hsortperm
      refine ⟨?_, ?_, ?_, ?_⟩
      · rw [← hids]
        exact List.sorted_insertionSort _ _
      · exact hidsperm.nodup_iff.mpr (id_by_name_snd_nodup feed t htG)
      · rw [hidsperm.length_eq]
        exact hlen
      · intro i
        constructor
        · intro hi
          exact (id_by_name_mem feed n i).mp ⟨t.2, htG2, hidsperm.subset hi⟩
        · intro hobs
          obtain ⟨ids2, hg2, hi2⟩ := (id_by_name_mem feed n i).mpr hobs
          have : ids2 = t.2 := assoc_entry_unique (id_by_name_fst_nodup feed) hg2 htG2
          rw [this] at hi2
          exact hidsperm.mem_iff.mpr hi2
    · rw [if_neg hlen] at hsome
      cases hsome
  · intro n i j hi hj hne
    obtain ⟨idsi, hgi, hii⟩ := (id_by_name_mem feed n i).mpr hi
    obtain ⟨idsj, hgj, hij⟩ := (id_by_name_mem feed n j).mpr hj
    have heq : idsi = idsj := assoc_entry_unique (id_by_name_fst_nodup feed) hgi hgj
    rw [heq] at hii
    have hlen : 1 < idsj.length := fb_two_mem_one_lt_length hii hij hne
    refine ⟨List.insertionSort (fun a b => a ≤ b) idsj, ?_⟩
    rw [_duplicate_names]
    apply hperm.mem_iff.mpr
    apply List.mem_filterMap.mpr
    refine ⟨(n, idsj), hgj, ?_⟩
    rw [if_pos hlen]
  · rw [_duplicate_names]
    exact List.sorted_insertionSort _ _

/-- Witness for C9: the specification example (ids 1 and 2 sharing name
key 50 for "Max", id 3 with name key 60 for "Eva") evaluated through the
theorem — the returned entry for name 50 is the sorted pair of its two
ids, and id 2 is indeed observed with name 50. -/
theorem C9_duplicate_names_witness :
    List.Sorted (fun a b : Nat => a ≤ b) [1, 2] ∧
    ([1, 2] : List Nat).Nodup ∧
    1 < ([1, 2] : List Nat).length ∧
    observes
      [({ fromUser := { id := 1, name := 50 },
          likes := [{ id := 2, name := 50 }],
          comments := [{ fromUser := { id := 3, name := 60 } }] } : AggPost Nat Nat)] 50 2 ∧
    List.Pairwise dup_le
      (_duplicate_names
        [({ fromUser := { id := 1, name := 50 },
            likes := [{ id := 2, name := 50 }],
            comments := [{ fromUser := { id := 3, name := 60 } }] } : AggPost Nat Nat)]) := by
  have h := (C9_duplicate_names
    [({ fromUser := { id := 1, name := 50 },
        likes := [{ id := 2, name := 50 }],
        comments := [{ fromUser := { id := 3, name := 60 } }] } : AggPost Nat Nat)]).1
    50 [1, 2] (by decide)
  exact ⟨h.1, h.2.1, h.2.2.1, (h.2.2.2 2).mp (by decide),
    (C9_duplicate_names
      [({ fromUser := { id := 1, name := 50 },
          likes := [{ id := 2, name := 50 }],
          comments := [{ fromUser := { id := 3, name := 60 } }] } : AggPost Nat Nat)]).2.2⟩
